import Mathlib

/-!
Verification of the `AvlBinarySearchTree` class (and the part of the plain
`BinarySearchTree` class that it is contrasted with) from
`src/dsa-practice/src/data-structures/graphs/graph.ts`, specialised to
integer keys with the class's default comparison function.

Every definition below is a direct shallow embedding of the corresponding
TypeScript method: `nil` stands for `null`, mutation of a node is modelled by
returning the rebuilt node, and the mutable `size` counter is threaded through
`insertNode` / `deleteNode` as an explicit size delta (the second component of
the returned pair), exactly mirroring the `this.size` increments and
decrements in the source.
-/

set_option linter.unusedVariables false

namespace Avl

/-- Nodes of the AVL tree (`class AvlNode<T>` in `graph.ts`), with integer
keys.  `nil` models TypeScript `null`; the `height` argument is the mutable
cached-height field of the node. -/
inductive AvlNode where
  | nil : AvlNode
  | node (left : AvlNode) (data : Int) (height : Int) (right : AvlNode)
deriving DecidableEq

namespace AvlNode

/-- `node.left`, with `nil.left = nil` for totality (never reached where the
source dereferences a non-null node). -/
def left : AvlNode → AvlNode
  | nil => nil
  | node l _ _ _ => l

/-- `node.right`. -/
def right : AvlNode → AvlNode
  | nil => nil
  | node _ _ _ r => r

/-- `node.data`; the `nil` case is a junk value, the source only reads `data`
from non-null nodes. -/
def data : AvlNode → Int
  | nil => 0
  | node _ d _ _ => d

end AvlNode

open AvlNode

/-- The default comparison function installed by the
`AvlBinarySearchTree` constructor: `a < b → -1`, `a > b → 1`, else `0`. -/
def cmp (a b : Int) : Int := if a < b then -1 else if a > b then 1 else 0

/-- `getHeight`: cached height of a node, `-1` for `null`. -/
def getHeight : AvlNode → Int
  | nil => -1
  | node _ _ h _ => h

/-- `updateHeight`: set the node's cached height to
`1 + max(getHeight(left), getHeight(right))`. -/
def updateHeight : AvlNode → AvlNode
  | nil => nil
  | node l d _ r => node l d (1 + max (getHeight l) (getHeight r)) r

/-- `getBalanceFactor`: `getHeight(left) - getHeight(right)` (only called on
non-null nodes in the source; the `nil` case is junk). -/
def getBalanceFactor : AvlNode → Int
  | nil => 0
  | node l _ _ r => getHeight l - getHeight r

/-- `rotateRight(y)`: `x = y.left`, `B = x.right`, rewire `x.right = y`,
`y.left = B`, then update the heights of `y` and then `x`.  The fallback
branch (`y` null or `y.left` null) is never reached where the source calls
this method. -/
def rotateRight : AvlNode → AvlNode
  | node (node a xd xh b) yd yh c =>
      updateHeight (node a xd xh (updateHeight (node b yd yh c)))
  | t => t

/-- `rotateLeft(x)`: mirror image of `rotateRight`. -/
def rotateLeft : AvlNode → AvlNode
  | node a xd xh (node b yd yh c) =>
      updateHeight (node (updateHeight (node a xd xh b)) yd yh c)
  | t => t

/-- `rotateLeftRight(node)`: left rotation on the left child, then right
rotation on the node. -/
def rotateLeftRight : AvlNode → AvlNode
  | node l d h r => rotateRight (node (rotateLeft l) d h r)
  | nil => nil

/-- `rotateRightLeft(node)`: right rotation on the right child, then left
rotation on the node. -/
def rotateRightLeft : AvlNode → AvlNode
  | node l d h r => rotateLeft (node l d h (rotateRight r))
  | nil => nil

/-- `balance(node)`: update the node's height, compute the balance factor and
apply the four rotation cases exactly as in the source. -/
def balance (n : AvlNode) : AvlNode :=
  let m := updateHeight n
  let bf := getBalanceFactor m
  if bf > 1 then
    if getBalanceFactor m.left < 0 then rotateLeftRight m else rotateRight m
  else if bf < -1 then
    if getBalanceFactor m.right > 0 then rotateRightLeft m else rotateLeft m
  else m

/-- `insertNode(node, data)`.  The second component is the net change the call
makes to `this.size` (the source decrements `size` on the duplicate-key path
to compensate for the unconditional increment in `insert`). -/
def insertNode : AvlNode → Int → AvlNode × Int
  | nil, d => (node nil d 0 nil, 0)
  | node l nd h r, d =>
    if cmp d nd < 0 then
      let p := insertNode l d
      (balance (node p.1 nd h r), p.2)
    else if cmp d nd > 0 then
      let p := insertNode r d
      (balance (node l nd h p.1), p.2)
    else
      (node l nd h r, -1)

/-- `findMinNode(node)`: walk left links to the leftmost node. -/
def findMinNode : AvlNode → AvlNode
  | node (node ll ld lh lr) d h r => findMinNode (node ll ld lh lr)
  | t => t

/-- `deleteNode(node, data)`.  The second component is the net change to
`this.size`: the found-key path decrements once, and the two-children path
additionally performs the recursive successor deletion (its own decrement)
followed by the compensating increment, exactly as in the source. -/
def deleteNode : AvlNode → Int → AvlNode × Int
  | nil, _ => (nil, 0)
  | node l nd h r, d =>
    if cmp d nd < 0 then
      let p := deleteNode l d
      (balance (node p.1 nd h r), p.2)
    else if cmp d nd > 0 then
      let p := deleteNode r d
      (balance (node l nd h p.1), p.2)
    else
      if l = nil ∧ r = nil then (nil, -1)
      else if l = nil then (r, -1)
      else if r = nil then (l, -1)
      else
        let sd := (findMinNode r).data
        let p := deleteNode r sd
        (balance (node l sd h p.1), -1 + p.2 + 1)

/-- `searchNode(node, data)`: returns the found node or `nil`. -/
def searchNode : AvlNode → Int → AvlNode
  | nil, _ => nil
  | node l nd h r, d =>
    if cmp d nd = 0 then node l nd h r
    else if cmp d nd < 0 then searchNode l d
    else searchNode r d

/-- `inorderHelper(node, result)`: in-order traversal accumulating into the
`result` array (modelled as the list it pushes onto). -/
def inorderHelper : AvlNode → List Int → List Int
  | nil, res => res
  | node l d _ r, res => inorderHelper r (inorderHelper l res ++ [d])

/-- `kthSmallestHelper(node, k, result)`: the mutable
`result = { count, value }` record is threaded through explicitly.  Mirrors
the early-return guard `node === null || result.value !== null`, the
post-left-recursion `result.count++`, the `result.count === k` check, and the
right recursion. -/
def kthSmallestHelper : AvlNode → Int → Int × Option Int → Int × Option Int
  | nil, _, res => res
  | node l d _ r, k, res =>
    if res.2.isSome then res
    else
      let res1 := kthSmallestHelper l k res
      let c := res1.1 + 1
      if c = k then (c, some d)
      else kthSmallestHelper r k (c, res1.2)

/-- `findLCA(node, val1, val2)`: descend while both comparisons agree in
sign. -/
def findLCA : AvlNode → Int → Int → AvlNode
  | nil, _, _ => nil
  | node l nd h r, v1, v2 =>
    if cmp v1 nd < 0 ∧ cmp v2 nd < 0 then findLCA l v1 v2
    else if cmp v1 nd > 0 ∧ cmp v2 nd > 0 then findLCA r v1 v2
    else node l nd h r

/-- `validateBST(node, min, max)`: `null` bounds are modelled as `none`. -/
def validateBST : AvlNode → Option Int → Option Int → Bool
  | nil, _, _ => true
  | node l d _ r, mn, mx =>
    let bad1 := match mn with
      | some m => decide (cmp d m ≤ 0)
      | none => false
    let bad2 := match mx with
      | some m => decide (cmp d m ≥ 0)
      | none => false
    if bad1 || bad2 then false
    else validateBST l mn (some d) && validateBST r (some d) mx

/-- `validateAVL(node)`: balance factor in `[-1,1]` and cached height equal to
`1 + max(getHeight(left), getHeight(right))` at every node. -/
def validateAVL : AvlNode → Bool
  | nil => true
  | node l d h r =>
    if |getBalanceFactor (node l d h r)| > 1 then false
    else if h ≠ 1 + max (getHeight l) (getHeight r) then false
    else validateAVL l && validateAVL r

/-- The tree handle `class AvlBinarySearchTree<T>`: a nullable root and the
mutable `size` counter. -/
structure AvlBinarySearchTree where
  root : AvlNode
  size : Int
deriving DecidableEq

namespace AvlBinarySearchTree

/-- The constructor: empty root, size 0. -/
def empty : AvlBinarySearchTree := ⟨nil, 0⟩

/-- `insert(data)`: `this.root = insertNode(this.root, data); this.size++`. -/
def insert (t : AvlBinarySearchTree) (d : Int) : AvlBinarySearchTree :=
  let p := insertNode t.root d
  ⟨p.1, t.size + p.2 + 1⟩

/-- `delete(data)`: records the initial size, runs `deleteNode`, and reports
whether the size decreased.  Returned as (result, new tree state). -/
def delete (t : AvlBinarySearchTree) (d : Int) : Bool × AvlBinarySearchTree :=
  let p := deleteNode t.root d
  (decide (t.size + p.2 < t.size), ⟨p.1, t.size + p.2⟩)

/-- `search(data)`: whether `searchNode` finds a node. -/
def search (t : AvlBinarySearchTree) (d : Int) : Bool :=
  decide (searchNode t.root d ≠ nil)

/-- `inorderTraversal()`. -/
def inorderTraversal (t : AvlBinarySearchTree) : List Int :=
  inorderHelper t.root []

/-- `height()`: cached height of the root, `-1` when empty. -/
def height (t : AvlBinarySearchTree) : Int := getHeight t.root

/-- `isBalanced()`: the AVL class returns the constant `true`. -/
def isBalanced (t : AvlBinarySearchTree) : Bool := true

/-- `count()`: the stored size counter. -/
def count (t : AvlBinarySearchTree) : Int := t.size

/-- `isEmpty()`. -/
def isEmpty (t : AvlBinarySearchTree) : Bool := decide (t.root = nil)

/-- `kthSmallest(k)`: out-of-range guard then the in-order helper started from
`{count: 0, value: null}`. -/
def kthSmallest (t : AvlBinarySearchTree) (k : Int) : Option Int :=
  if k ≤ 0 ∨ k > t.size then none
  else (kthSmallestHelper t.root k (0, none)).2

/-- `lowestCommonAncestor(val1, val2)`: `findLCA` then `node.data` or
`null`. -/
def lowestCommonAncestor (t : AvlBinarySearchTree) (v1 v2 : Int) : Option Int :=
  match findLCA t.root v1 v2 with
  | nil => none
  | n => some n.data

/-- `isValidBST()`. -/
def isValidBST (t : AvlBinarySearchTree) : Bool :=
  validateBST t.root none none

/-- `isValidAVL()`. -/
def isValidAVL (t : AvlBinarySearchTree) : Bool :=
  validateAVL t.root

end AvlBinarySearchTree

/-- One public mutating call on the tree handle. -/
inductive Op where
  | ins (k : Int)
  | del (k : Int)

/-- Apply one mutating call (the `delete` return value is discarded). -/
def applyOp (t : AvlBinarySearchTree) : Op → AvlBinarySearchTree
  | Op.ins k => t.insert k
  | Op.del k => (t.delete k).2

/-- Run a sequence of mutating calls on an initially empty tree. -/
def runOps (ops : List Op) : AvlBinarySearchTree :=
  ops.foldl applyOp AvlBinarySearchTree.empty

/-- Build a tree by inserting a list of keys in order into an empty tree. -/
def buildList (l : List Int) : AvlBinarySearchTree :=
  l.foldl AvlBinarySearchTree.insert AvlBinarySearchTree.empty

end Avl

namespace PlainBst

/-- Nodes of the plain (non-balancing) `BinarySearchTree` from `graph.ts`
(`class TreeNode<T>`), integer keys, no cached height. -/
inductive TreeNode where
  | nil : TreeNode
  | node (left : TreeNode) (data : Int) (right : TreeNode)
deriving DecidableEq

/-- `BinarySearchTree.checkBalance(node)`: returns the height (counting the
empty tree as 0) or `-1` as an "unbalanced" marker, with early exit. -/
def checkBalance : TreeNode → Int
  | TreeNode.nil => 0
  | TreeNode.node l _ r =>
    let lh := checkBalance l
    if lh = -1 then -1
    else
      let rh := checkBalance r
      if rh = -1 then -1
      else if |lh - rh| > 1 then -1
      else 1 + max lh rh

/-- `BinarySearchTree.isBalanced()`: `checkBalance(root) !== -1`. -/
def isBalanced (root : TreeNode) : Bool := decide (checkBalance root ≠ -1)

end PlainBst

namespace Avl

open AvlNode

/-! ## Specification layer: recomputed heights, invariants, in-order list -/

/-- Recomputed (true) height of a subtree, ignoring the cached fields. -/
def realHeight : AvlNode → Int
  | nil => -1
  | node l _ _ r => 1 + max (realHeight l) (realHeight r)

/-- Height-cache correctness at every node of the subtree. -/
def HOk : AvlNode → Prop
  | nil => True
  | node l _ h r => HOk l ∧ HOk r ∧ h = 1 + max (realHeight l) (realHeight r)

/-- AVL balance condition at every node of the subtree. -/
def AvlBal : AvlNode → Prop
  | nil => True
  | node l _ _ r => AvlBal l ∧ AvlBal r ∧ |realHeight l - realHeight r| ≤ 1

/-- Specification-level in-order key list (the list `inorderHelper` pushes). -/
def inorderN : AvlNode → List Int
  | nil => []
  | node l d _ r => inorderN l ++ d :: inorderN r

/-- BST ordering, phrased as strict sortedness of the in-order key list. -/
def Ordered (t : AvlNode) : Prop := (inorderN t).Pairwise (· < ·)

/-- All invariants of a well-formed AVL subtree. -/
def Inv (t : AvlNode) : Prop := HOk t ∧ AvlBal t ∧ Ordered t

/-- A well-formed tree handle: invariant root and accurate size counter. -/
def ValidTree (t : AvlBinarySearchTree) : Prop :=
  Inv t.root ∧ t.size = ((inorderN t.root).length : Int)

/-- A corrupted AVL state: a right spine whose cached heights are stale. -/
def avlSpine : AvlNode := node nil 1 0 (node nil 2 0 (node nil 3 0 nil))

/-- The same right-spine shape as a plain-BST node. -/
def plainSpine : PlainBst.TreeNode :=
  PlainBst.TreeNode.node PlainBst.TreeNode.nil 1
    (PlainBst.TreeNode.node PlainBst.TreeNode.nil 2
      (PlainBst.TreeNode.node PlainBst.TreeNode.nil 3 PlainBst.TreeNode.nil))

instance instDecHOk : (t : AvlNode) → Decidable (HOk t)
  | nil => isTrue trivial
  | node l d h r =>
    have := instDecHOk l
    have := instDecHOk r
    inferInstanceAs (Decidable (HOk l ∧ HOk r ∧ h = 1 + max (realHeight l) (realHeight r)))

instance instDecAvlBal : (t : AvlNode) → Decidable (AvlBal t)
  | nil => isTrue trivial
  | node l d h r =>
    have := instDecAvlBal l
    have := instDecAvlBal r
    inferInstanceAs (Decidable (AvlBal l ∧ AvlBal r ∧ |realHeight l - realHeight r| ≤ 1))

instance instDecOrdered (t : AvlNode) : Decidable (Ordered t) :=
  inferInstanceAs (Decidable ((inorderN t).Pairwise (· < ·)))

instance instDecInv (t : AvlNode) : Decidable (Inv t) :=
  inferInstanceAs (Decidable (HOk t ∧ AvlBal t ∧ Ordered t))

instance instDecValidTree (t : AvlBinarySearchTree) : Decidable (ValidTree t) :=
  inferInstanceAs (Decidable (Inv t.root ∧ t.size = ((inorderN t.root).length : Int)))

@[simp] theorem HOk_nil : HOk nil := trivial

@[simp] theorem HOk_node {l r : AvlNode} {d h : Int} :
    HOk (node l d h r) ↔ HOk l ∧ HOk r ∧ h = 1 + max (realHeight l) (realHeight r) :=
  Iff.rfl

@[simp] theorem AvlBal_nil : AvlBal nil := trivial

@[simp] theorem AvlBal_node {l r : AvlNode} {d h : Int} :
    AvlBal (node l d h r) ↔ AvlBal l ∧ AvlBal r ∧ |realHeight l - realHeight r| ≤ 1 :=
  Iff.rfl

@[simp] theorem Ordered_nil : Ordered nil := List.Pairwise.nil

theorem Ordered_node {l r : AvlNode} {d h : Int} :
    Ordered (node l d h r) ↔
      Ordered l ∧ Ordered r ∧ (∀ x ∈ inorderN l, x < d) ∧ (∀ y ∈ inorderN r, d < y) := by
  simp only [Ordered, inorderN, List.pairwise_append, List.pairwise_cons]
  constructor
  · rintro ⟨hl, ⟨hdr, hr⟩, hcross⟩
    exact ⟨hl, hr, fun x hx => hcross x hx d (by simp), hdr⟩
  · rintro ⟨hl, hr, hld, hdr⟩
    refine ⟨hl, ⟨hdr, hr⟩, ?_⟩
    intro x hx b hb
    rcases List.mem_cons.mp hb with rfl | hb
    · exact hld x hx
    · exact lt_trans (hld x hx) (hdr b hb)

theorem getHeight_eq {t : AvlNode} (h : HOk t) : getHeight t = realHeight t := by
  cases t with
  | nil => rfl
  | node l d ht r => exact h.2.2

theorem realHeight_ge (t : AvlNode) : -1 ≤ realHeight t := by
  cases t with
  | nil => simp [realHeight]
  | node l d h r =>
    have := realHeight_ge l
    simp only [realHeight]
    omega

theorem realHeight_nil : realHeight nil = -1 := rfl

theorem realHeight_node {l r : AvlNode} {d h : Int} :
    realHeight (node l d h r) = 1 + max (realHeight l) (realHeight r) := rfl

theorem ne_nil_of_realHeight {t : AvlNode} (h : 0 ≤ realHeight t) : t ≠ nil := by
  intro heq; rw [heq] at h; simp [realHeight] at h

theorem inorderHelper_eq (t : AvlNode) : ∀ res, inorderHelper t res = res ++ inorderN t := by
  induction t with
  | nil => intro res; simp [inorderHelper, inorderN]
  | node l d h r ihl ihr => intro res; simp [inorderHelper, inorderN, ihl, ihr]

theorem inorderTraversal_eq (t : AvlBinarySearchTree) :
    t.inorderTraversal = inorderN t.root := by
  simp [AvlBinarySearchTree.inorderTraversal, inorderHelper_eq]

end Avl

namespace Avl

open AvlNode

/-! ## Constructor-level equation lemmas -/

@[simp] theorem getHeight_nil : getHeight nil = -1 := rfl

@[simp] theorem getHeight_node {l r : AvlNode} {d h : Int} :
    getHeight (node l d h r) = h := rfl

@[simp] theorem updateHeight_node {l r : AvlNode} {d h : Int} :
    updateHeight (node l d h r) = node l d (1 + max (getHeight l) (getHeight r)) r := rfl

@[simp] theorem getBalanceFactor_node {l r : AvlNode} {d h : Int} :
    getBalanceFactor (node l d h r) = getHeight l - getHeight r := rfl

@[simp] theorem left_node {l r : AvlNode} {d h : Int} : (node l d h r).left = l := rfl

@[simp] theorem right_node {l r : AvlNode} {d h : Int} : (node l d h r).right = r := rfl

@[simp] theorem data_node {l r : AvlNode} {d h : Int} : (node l d h r).data = d := rfl

@[simp] theorem inorderN_nil : inorderN nil = [] := rfl

@[simp] theorem inorderN_node {l r : AvlNode} {d h : Int} :
    inorderN (node l d h r) = inorderN l ++ d :: inorderN r := rfl

theorem rotateRight_node {a b c : AvlNode} {xd xh yd yh : Int} :
    rotateRight (node (node a xd xh b) yd yh c) =
      node a xd (1 + max (getHeight a) (1 + max (getHeight b) (getHeight c)))
        (node b yd (1 + max (getHeight b) (getHeight c)) c) := rfl

theorem rotateLeft_node {a b c : AvlNode} {xd xh yd yh : Int} :
    rotateLeft (node a xd xh (node b yd yh c)) =
      node (node a xd (1 + max (getHeight a) (getHeight b)) b) yd
        (1 + max (1 + max (getHeight a) (getHeight b)) (getHeight c)) c := rfl

/-! ## Computation lemmas for `balance` -/

theorem balance_eq_noRot {l r : AvlNode} {d h : Int}
    (hb1 : getHeight l - getHeight r ≤ 1) (hb2 : -1 ≤ getHeight l - getHeight r) :
    balance (node l d h r) = node l d (1 + max (getHeight l) (getHeight r)) r := by
  simp only [balance, updateHeight_node, getBalanceFactor_node, getHeight_node]
  rw [if_neg (by omega), if_neg (by omega)]

theorem balance_eq_rotR {la lr r : AvlNode} {ld lh d h : Int}
    (hbf : lh - getHeight r > 1)
    (hsub : 0 ≤ getHeight la - getHeight lr) :
    balance (node (node la ld lh lr) d h r) =
      node la ld (1 + max (getHeight la) (1 + max (getHeight lr) (getHeight r)))
        (node lr d (1 + max (getHeight lr) (getHeight r)) r) := by
  simp only [balance, updateHeight_node, getBalanceFactor_node, getHeight_node, left_node]
  rw [if_pos (by omega), if_neg (by omega), rotateRight_node]

theorem balance_eq_rotLR {la p w r : AvlNode} {ld lh q qh d h : Int}
    (hbf : lh - getHeight r > 1)
    (hsub : getHeight la - qh < 0) :
    balance (node (node la ld lh (node p q qh w)) d h r) =
      node (node la ld (1 + max (getHeight la) (getHeight p)) p) q
        (1 + max (1 + max (getHeight la) (getHeight p)) (1 + max (getHeight w) (getHeight r)))
        (node w d (1 + max (getHeight w) (getHeight r)) r) := by
  simp only [balance, updateHeight_node, getBalanceFactor_node, getHeight_node, left_node]
  rw [if_pos (by omega), if_pos (by omega)]
  simp only [rotateLeftRight, rotateLeft_node, getHeight_node, rotateRight_node]

theorem balance_eq_rotL {l rl rr : AvlNode} {d h rd rh2 : Int}
    (hbf : getHeight l - rh2 < -1)
    (hsub : getHeight rl - getHeight rr ≤ 0) :
    balance (node l d h (node rl rd rh2 rr)) =
      node (node l d (1 + max (getHeight l) (getHeight rl)) rl) rd
        (1 + max (1 + max (getHeight l) (getHeight rl)) (getHeight rr)) rr := by
  simp only [balance, updateHeight_node, getBalanceFactor_node, getHeight_node, right_node]
  rw [if_neg (by omega), if_pos (by omega), if_neg (by omega), rotateLeft_node]

theorem balance_eq_rotRL {l p w rr : AvlNode} {d h q qh rd rh2 : Int}
    (hbf : getHeight l - rh2 < -1)
    (hsub : qh - getHeight rr > 0) :
    balance (node l d h (node (node p q qh w) rd rh2 rr)) =
      node (node l d (1 + max (getHeight l) (getHeight p)) p) q
        (1 + max (1 + max (getHeight l) (getHeight p)) (1 + max (getHeight w) (getHeight rr)))
        (node w rd (1 + max (getHeight w) (getHeight rr)) rr) := by
  simp only [balance, updateHeight_node, getBalanceFactor_node, getHeight_node, right_node]
  rw [if_neg (by omega), if_pos (by omega), if_pos (by omega)]
  simp only [rotateRightLeft, rotateRight_node, getHeight_node, rotateLeft_node]

end Avl

namespace Avl

open AvlNode

set_option maxHeartbeats 1000000

theorem balance_spec_heavyL {l r : AvlNode} {d h : Int}
    (hL : HOk l) (hR : HOk r) (bL : AvlBal l) (bR : AvlBal r)
    (hheavy : realHeight l - realHeight r = 2) :
    HOk (balance (node l d h r)) ∧
    AvlBal (balance (node l d h r)) ∧
    inorderN (balance (node l d h r)) = inorderN l ++ d :: inorderN r ∧
    max (realHeight l) (realHeight r) ≤ realHeight (balance (node l d h r)) ∧
    realHeight (balance (node l d h r)) ≤ 1 + max (realHeight l) (realHeight r) := by
  have e2 : getHeight r = realHeight r := getHeight_eq hR
  have hrge := realHeight_ge r
  cases l with
  | nil => simp only [realHeight_nil] at hheavy; omega
  | node la ld lh lr =>
    rcases hL with ⟨hLa, hLr, hlh⟩
    rcases bL with ⟨bLa, bLr, hbalL⟩
    rw [abs_le] at hbalL
    simp only [realHeight_node] at hheavy
    have eLa : getHeight la = realHeight la := getHeight_eq hLa
    have eLr : getHeight lr = realHeight lr := getHeight_eq hLr
    by_cases hw : 0 ≤ realHeight la - realHeight lr
    · -- left-left: single right rotation
      rw [balance_eq_rotR (by rw [e2, hlh]; omega) (by rw [eLa, eLr]; omega)]
      rw [eLa, eLr, e2]
      refine ⟨⟨hLa, ⟨hLr, hR, by simp only [realHeight_node]⟩, by simp only [realHeight_node]⟩,
        ⟨bLa, ⟨bLr, bR, ?_⟩, ?_⟩, ?_, ?_, ?_⟩
      · rw [abs_le]; omega
      · simp only [realHeight_node]; rw [abs_le]; constructor <;> omega
      · simp only [inorderN_node, List.cons_append, List.append_assoc]
      · simp only [realHeight_node]; omega
      · simp only [realHeight_node]; omega
    · -- left-right: double rotation
      have hlrne : lr ≠ nil := by
        intro hx
        rw [hx] at hw
        simp only [realHeight_nil] at hw
        have := realHeight_ge la
        omega
      cases lr with
      | nil => exact absurd rfl hlrne
      | node p q qh w =>
        rcases hLr with ⟨hP, hW, hqh⟩
        rcases bLr with ⟨bP, bW, hbalLr⟩
        rw [abs_le] at hbalLr
        simp only [realHeight_node] at hheavy hbalL hw
        have eP : getHeight p = realHeight p := getHeight_eq hP
        have eW : getHeight w = realHeight w := getHeight_eq hW
        rw [balance_eq_rotLR (by rw [e2, hlh]; simp only [realHeight_node]; omega)
          (by rw [eLa, hqh]; omega)]
        rw [eLa, eP, eW, e2]
        refine ⟨⟨⟨hLa, hP, by simp only [realHeight_node]⟩,
            ⟨hW, hR, by simp only [realHeight_node]⟩, by simp only [realHeight_node]⟩,
          ⟨⟨bLa, bP, ?_⟩, ⟨bW, bR, ?_⟩, ?_⟩, ?_, ?_, ?_⟩
        · rw [abs_le]; constructor <;> omega
        · rw [abs_le]; constructor <;> omega
        · simp only [realHeight_node]; rw [abs_le]; constructor <;> omega
        · simp only [inorderN_node, List.cons_append, List.append_assoc]
        · simp only [realHeight_node]; omega
        · simp only [realHeight_node]; omega

end Avl

namespace Avl

open AvlNode

theorem balance_spec_heavyR {l r : AvlNode} {d h : Int}
    (hL : HOk l) (hR : HOk r) (bL : AvlBal l) (bR : AvlBal r)
    (hheavy : realHeight l - realHeight r = -2) :
    HOk (balance (node l d h r)) ∧
    AvlBal (balance (node l d h r)) ∧
    inorderN (balance (node l d h r)) = inorderN l ++ d :: inorderN r ∧
    max (realHeight l) (realHeight r) ≤ realHeight (balance (node l d h r)) ∧
    realHeight (balance (node l d h r)) ≤ 1 + max (realHeight l) (realHeight r) := by
  have e1 : getHeight l = realHeight l := getHeight_eq hL
  have hlge := realHeight_ge l
  cases r with
  | nil => simp only [realHeight_nil] at hheavy; omega
  | node rl rd rh2 rr =>
    rcases hR with ⟨hRl, hRr, hrh⟩
    rcases bR with ⟨bRl, bRr, hbalR⟩
    rw [abs_le] at hbalR
    simp only [realHeight_node] at hheavy
    have eRl : getHeight rl = realHeight rl := getHeight_eq hRl
    have eRr : getHeight rr = realHeight rr := getHeight_eq hRr
    by_cases hw : realHeight rl - realHeight rr ≤ 0
    · -- right-right: single left rotation
      rw [balance_eq_rotL (by rw [e1, hrh]; omega) (by rw [eRl, eRr]; omega)]
      rw [eRl, eRr, e1]
      refine ⟨⟨⟨hL, hRl, by simp only [realHeight_node]⟩, hRr, by simp only [realHeight_node]⟩,
        ⟨⟨bL, bRl, ?_⟩, bRr, ?_⟩, ?_, ?_, ?_⟩
      · rw [abs_le]; omega
      · simp only [realHeight_node]; rw [abs_le]; constructor <;> omega
      · simp only [inorderN_node, List.cons_append, List.append_assoc]
      · simp only [realHeight_node]; omega
      · simp only [realHeight_node]; omega
    · -- right-left: double rotation
      have hrlne : rl ≠ nil := by
        intro hx
        rw [hx] at hw
        simp only [realHeight_nil] at hw
        have := realHeight_ge rr
        omega
      cases rl with
      | nil => exact absurd rfl hrlne
      | node p q qh w =>
        rcases hRl with ⟨hP, hW, hqh⟩
        rcases bRl with ⟨bP, bW, hbalRl⟩
        rw [abs_le] at hbalRl
        simp only [realHeight_node] at hheavy hbalR hw
        have eP : getHeight p = realHeight p := getHeight_eq hP
        have eW : getHeight w = realHeight w := getHeight_eq hW
        rw [balance_eq_rotRL (by rw [e1, hrh]; simp only [realHeight_node]; omega)
          (by rw [eRr, hqh]; omega)]
        rw [eP, eW, e1, eRr]
        refine ⟨⟨⟨hL, hP, by simp only [realHeight_node]⟩,
            ⟨hW, hRr, by simp only [realHeight_node]⟩, by simp only [realHeight_node]⟩,
          ⟨⟨bL, bP, ?_⟩, ⟨bW, bRr, ?_⟩, ?_⟩, ?_, ?_, ?_⟩
        · rw [abs_le]; constructor <;> omega
        · rw [abs_le]; constructor <;> omega
        · simp only [realHeight_node]; rw [abs_le]; constructor <;> omega
        · simp only [inorderN_node, List.cons_append, List.append_assoc]
        · simp only [realHeight_node]; omega
        · simp only [realHeight_node]; omega

end Avl

namespace Avl

open AvlNode

theorem balance_eq_noRot_real {l r : AvlNode} {d h : Int} (hL : HOk l) (hR : HOk r)
    (hb1 : -1 ≤ realHeight l - realHeight r) (hb2 : realHeight l - realHeight r ≤ 1) :
    balance (node l d h r) = node l d (1 + max (realHeight l) (realHeight r)) r := by
  have e1 : getHeight l = realHeight l := getHeight_eq hL
  have e2 : getHeight r = realHeight r := getHeight_eq hR
  rw [balance_eq_noRot (by rw [e1, e2]; omega) (by rw [e1, e2]; omega), e1, e2]

/-- Master specification of `balance`: on a node whose children carry correct
cached heights and are AVL-balanced, and whose recomputed balance factor is in
`[-2, 2]`, the result is height-correct and balanced, keeps the in-order key
sequence, changes the height by at most one relative to
`1 + max(child heights)`, and is a pure height update (no rotation) when the
balance factor is already in `[-1, 1]`. -/
theorem balance_spec {l r : AvlNode} {d h : Int}
    (hL : HOk l) (hR : HOk r) (bL : AvlBal l) (bR : AvlBal r)
    (hdiff : |realHeight l - realHeight r| ≤ 2) :
    HOk (balance (node l d h r)) ∧
    AvlBal (balance (node l d h r)) ∧
    inorderN (balance (node l d h r)) = inorderN l ++ d :: inorderN r ∧
    max (realHeight l) (realHeight r) ≤ realHeight (balance (node l d h r)) ∧
    realHeight (balance (node l d h r)) ≤ 1 + max (realHeight l) (realHeight r) ∧
    (|realHeight l - realHeight r| ≤ 1 →
      balance (node l d h r) = node l d (1 + max (realHeight l) (realHeight r)) r) := by
  rw [abs_le] at hdiff
  by_cases hs : -1 ≤ realHeight l - realHeight r ∧ realHeight l - realHeight r ≤ 1
  · have heq := balance_eq_noRot_real (d := d) (h := h) hL hR hs.1 hs.2
    rw [heq]
    refine ⟨⟨hL, hR, rfl⟩, ⟨bL, bR, abs_le.mpr ⟨hs.1, hs.2⟩⟩, rfl, ?_, ?_, fun _ => rfl⟩
    · simp only [realHeight_node]; omega
    · simp only [realHeight_node]; omega
  · have h2 : realHeight l - realHeight r = 2 ∨ realHeight l - realHeight r = -2 := by omega
    rcases h2 with h2 | h2
    · obtain ⟨c1, c2, c3, c4, c5⟩ := balance_spec_heavyL hL hR bL bR h2
      refine ⟨c1, c2, c3, c4, c5, fun hc => False.elim ?_⟩
      rw [abs_le] at hc
      omega
    · obtain ⟨c1, c2, c3, c4, c5⟩ := balance_spec_heavyR hL hR bL bR h2
      refine ⟨c1, c2, c3, c4, c5, fun hc => False.elim ?_⟩
      rw [abs_le] at hc
      omega

end Avl


namespace Avl

open AvlNode

set_option maxHeartbeats 4000000

/-! ## Comparison and unfolding lemmas -/

theorem cmp_lt {a b : Int} (h : a < b) : cmp a b = -1 := by
  rw [cmp, if_pos h]

theorem cmp_gt {a b : Int} (h : b < a) : cmp a b = 1 := by
  rw [cmp, if_neg (by omega), if_pos h]

theorem cmp_self {a : Int} : cmp a a = 0 := by
  rw [cmp, if_neg (by omega), if_neg (by omega)]

theorem mem_node_iff {l r : AvlNode} {nd h y : Int} :
    y ∈ inorderN (node l nd h r) ↔ y ∈ inorderN l ∨ y = nd ∨ y ∈ inorderN r := by
  simp [inorderN_node]

theorem insertNode_nil_fst {x : Int} : (insertNode nil x).1 = node nil x 0 nil := rfl

theorem insertNode_nil_snd {x : Int} : (insertNode nil x).2 = 0 := rfl

theorem insertNode_lt_fst {l r : AvlNode} {x nd h : Int} (hx : x < nd) :
    (insertNode (node l nd h r) x).1 = balance (node (insertNode l x).1 nd h r) := by
  simp [insertNode, cmp_lt hx]

theorem insertNode_lt_snd {l r : AvlNode} {x nd h : Int} (hx : x < nd) :
    (insertNode (node l nd h r) x).2 = (insertNode l x).2 := by
  simp [insertNode, cmp_lt hx]

theorem insertNode_gt_fst {l r : AvlNode} {x nd h : Int} (hx : nd < x) :
    (insertNode (node l nd h r) x).1 = balance (node l nd h (insertNode r x).1) := by
  simp [insertNode, cmp_gt hx]

theorem insertNode_gt_snd {l r : AvlNode} {x nd h : Int} (hx : nd < x) :
    (insertNode (node l nd h r) x).2 = (insertNode r x).2 := by
  simp [insertNode, cmp_gt hx]

theorem insertNode_dup_fst {l r : AvlNode} {x h : Int} :
    (insertNode (node l x h r) x).1 = node l x h r := by
  simp [insertNode, cmp_self]

theorem insertNode_dup_snd {l r : AvlNode} {x h : Int} :
    (insertNode (node l x h r) x).2 = -1 := by
  simp [insertNode, cmp_self]

/-- Master specification of `insertNode` on an invariant-satisfying subtree:
invariants are preserved, the key set gains `x`, the height grows by at most
one (and never shrinks), and the length/size-delta bookkeeping is exact. -/
theorem insertNode_spec (x : Int) :
    ∀ t : AvlNode, HOk t → AvlBal t → Ordered t →
    HOk (insertNode t x).1 ∧ AvlBal (insertNode t x).1 ∧ Ordered (insertNode t x).1 ∧
    (∀ y, y ∈ inorderN (insertNode t x).1 ↔ y ∈ inorderN t ∨ y = x) ∧
    realHeight t ≤ realHeight (insertNode t x).1 ∧
    realHeight (insertNode t x).1 ≤ realHeight t + 1 ∧
    ((inorderN (insertNode t x).1).length : Int) =
      ((inorderN t).length : Int) + (if x ∈ inorderN t then 0 else 1) ∧
    (insertNode t x).2 = (if x ∈ inorderN t then -1 else 0) := by
  intro t
  induction t with
  | nil =>
    intro _ _ _
    rw [insertNode_nil_fst, insertNode_nil_snd]
    refine ⟨⟨trivial, trivial, by simp [realHeight_nil]⟩,
      ⟨trivial, trivial, by simp [realHeight_nil]⟩,
      by simp [Ordered, inorderN], by simp [inorderN],
      by simp [realHeight_node, realHeight_nil], by simp [realHeight_node, realHeight_nil],
      by simp [inorderN], by simp [inorderN]⟩
  | node l nd h r ihl ihr =>
    intro hH hB hO
    rcases hH with ⟨hHl, hHr, hcache⟩
    rcases hB with ⟨hBl, hBr, hbal⟩
    rw [abs_le] at hbal
    rcases Ordered_node.mp hO with ⟨hOl, hOr, hld, hrd⟩
    rcases lt_trichotomy x nd with hlt | heq | hgt
    · rw [insertNode_lt_fst hlt, insertNode_lt_snd hlt]
      obtain ⟨ih1, ih2, ih3, ih4, ih5, ih6, ih7, ih8⟩ := ihl hHl hBl hOl
      set l' := (insertNode l x).1 with hseta
      set ds := (insertNode l x).2 with hsetb
      obtain ⟨b1, b2, b3, b4, b5, b6⟩ :=
        balance_spec (d := nd) (h := h) ih1 hHr ih2 hBr (abs_le.mpr ⟨by omega, by omega⟩)
      set bt := balance (node l' nd h r) with hsetc
      have hxmem : x ∈ inorderN (node l nd h r) ↔ x ∈ inorderN l := by
        rw [mem_node_iff]
        constructor
        · rintro (hx | rfl | hx)
          · exact hx
          · exact absurd hlt (lt_irrefl _)
          · exact absurd (hrd x hx) (by omega)
        · exact fun hx => Or.inl hx
      refine ⟨b1, b2, ?_, ?_, ?_, ?_, ?_, ?_⟩
      · rw [Ordered, b3]
        have hOn : Ordered (node l' nd h r) := by
          rw [Ordered_node]
          refine ⟨ih3, hOr, ?_, hrd⟩
          intro y hy
          rcases (ih4 y).mp hy with hy | rfl
          · exact hld y hy
          · exact hlt
        simpa [Ordered, inorderN_node] using hOn
      · intro y
        rw [b3]
        have h4 := ih4 y
        simp only [inorderN_node, List.mem_append, List.mem_cons] at h4 ⊢
        rw [h4]
        constructor
        · rintro ((hy | hy) | hy | hy)
          · exact Or.inl (Or.inl hy)
          · exact Or.inr hy
          · exact Or.inl (Or.inr (Or.inl hy))
          · exact Or.inl (Or.inr (Or.inr hy))
        · rintro ((hy | hy | hy) | hy)
          · exact Or.inl (Or.inl hy)
          · exact Or.inr (Or.inl hy)
          · exact Or.inr (Or.inr hy)
          · exact Or.inl (Or.inr hy)
      · by_cases hbf2 : realHeight l' - realHeight r ≤ 1
        · rw [b6 (abs_le.mpr ⟨by omega, hbf2⟩)]
          simp only [realHeight_node]
          omega
        · push_neg at hbf2
          simp only [realHeight_node]
          omega
      · simp only [realHeight_node]
        omega
      · rw [b3]
        by_cases hxm : x ∈ inorderN l
        · rw [if_pos (hxmem.mpr hxm)]
          rw [if_pos hxm] at ih7
          simp only [inorderN_node, List.length_append, List.length_cons]
          push_cast at ih7 ⊢
          omega
        · rw [if_neg (fun hc => hxm (hxmem.mp hc))]
          rw [if_neg hxm] at ih7
          simp only [inorderN_node, List.length_append, List.length_cons]
          push_cast at ih7 ⊢
          omega
      · by_cases hxm : x ∈ inorderN l
        · rw [if_pos hxm] at ih8
          rw [if_pos (hxmem.mpr hxm)]
          exact ih8
        · rw [if_neg (fun hc => hxm (hxmem.mp hc))]
          rw [if_neg hxm] at ih8
          exact ih8
    · subst heq
      rw [insertNode_dup_fst, insertNode_dup_snd]
      have hxin : x ∈ inorderN (node l x h r) := mem_node_iff.mpr (Or.inr (Or.inl rfl))
      refine ⟨⟨hHl, hHr, hcache⟩, ⟨hBl, hBr, abs_le.mpr hbal⟩, hO, ?_, le_refl _, by omega,
        ?_, ?_⟩
      · intro y
        constructor
        · exact fun hy => Or.inl hy
        · rintro (hy | rfl)
          · exact hy
          · exact hxin
      · rw [if_pos hxin]
        omega
      · rw [if_pos hxin]
    · rw [insertNode_gt_fst hgt, insertNode_gt_snd hgt]
      obtain ⟨ih1, ih2, ih3, ih4, ih5, ih6, ih7, ih8⟩ := ihr hHr hBr hOr
      set r' := (insertNode r x).1 with hseta
      set ds := (insertNode r x).2 with hsetb
      obtain ⟨b1, b2, b3, b4, b5, b6⟩ :=
        balance_spec (d := nd) (h := h) hHl ih1 hBl ih2 (abs_le.mpr ⟨by omega, by omega⟩)
      set bt := balance (node l nd h r') with hsetc
      have hxmem : x ∈ inorderN (node l nd h r) ↔ x ∈ inorderN r := by
        rw [mem_node_iff]
        constructor
        · rintro (hx | rfl | hx)
          · exact absurd (hld x hx) (by omega)
          · exact absurd hgt (lt_irrefl _)
          · exact hx
        · exact fun hx => Or.inr (Or.inr hx)
      refine ⟨b1, b2, ?_, ?_, ?_, ?_, ?_, ?_⟩
      · rw [Ordered, b3]
        have hOn : Ordered (node l nd h r') := by
          rw [Ordered_node]
          refine ⟨hOl, ih3, hld, ?_⟩
          intro y hy
          rcases (ih4 y).mp hy with hy | rfl
          · exact hrd y hy
          · exact hgt
        simpa [Ordered, inorderN_node] using hOn
      · intro y
        rw [b3]
        have h4 := ih4 y
        simp only [inorderN_node, List.mem_append, List.mem_cons] at h4 ⊢
        rw [h4]
        constructor
        · rintro (hy | hy | hy | hy)
          · exact Or.inl (Or.inl hy)
          · exact Or.inl (Or.inr (Or.inl hy))
          · exact Or.inl (Or.inr (Or.inr hy))
          · exact Or.inr hy
        · rintro ((hy | hy | hy) | hy)
          · exact Or.inl hy
          · exact Or.inr (Or.inl hy)
          · exact Or.inr (Or.inr (Or.inl hy))
          · exact Or.inr (Or.inr (Or.inr hy))
      · by_cases hbf2 : -1 ≤ realHeight l - realHeight r'
        · rw [b6 (abs_le.mpr ⟨hbf2, by omega⟩)]
          simp only [realHeight_node]
          omega
        · push_neg at hbf2
          simp only [realHeight_node]
          omega
      · simp only [realHeight_node]
        omega
      · rw [b3]
        by_cases hxm : x ∈ inorderN r
        · rw [if_pos (hxmem.mpr hxm)]
          rw [if_pos hxm] at ih7
          simp only [inorderN_node, List.length_append, List.length_cons]
          push_cast at ih7 ⊢
          omega
        · rw [if_neg (fun hc => hxm (hxmem.mp hc))]
          rw [if_neg hxm] at ih7
          simp only [inorderN_node, List.length_append, List.length_cons]
          push_cast at ih7 ⊢
          omega
      · by_cases hxm : x ∈ inorderN r
        · rw [if_pos hxm] at ih8
          rw [if_pos (hxmem.mpr hxm)]
          exact ih8
        · rw [if_neg (fun hc => hxm (hxmem.mp hc))]
          rw [if_neg hxm] at ih8
          exact ih8

end Avl

namespace Avl

open AvlNode

set_option maxHeartbeats 1600000

/-! ## findMinNode and deleteNode unfolding lemmas -/

theorem findMinNode_leaf {d h : Int} {r : AvlNode} :
    findMinNode (node nil d h r) = node nil d h r := rfl

theorem findMinNode_step {ll lr r : AvlNode} {ld lh d h : Int} :
    findMinNode (node (node ll ld lh lr) d h r) = findMinNode (node ll ld lh lr) := rfl

/-- The leftmost key is the head of the in-order list. -/
theorem findMinNode_cons :
    ∀ t : AvlNode, t ≠ nil → ∃ rest, inorderN t = (findMinNode t).data :: rest := by
  intro t
  induction t with
  | nil => exact fun hne => absurd rfl hne
  | node l d h r ihl ihr =>
    intro _
    cases l with
    | nil =>
      exact ⟨inorderN r, by rw [findMinNode_leaf]; simp [inorderN_node, data_node]⟩
    | node ll ld lh lr =>
      obtain ⟨rest, hrest⟩ := ihl (by simp)
      refine ⟨rest ++ d :: inorderN r, ?_⟩
      rw [findMinNode_step]
      simp only [inorderN_node] at hrest ⊢
      rw [hrest]
      simp

theorem findMinNode_facts (r : AvlNode) (hne : r ≠ nil) (hOr : Ordered r) :
    (findMinNode r).data ∈ inorderN r ∧
    (∀ y ∈ inorderN r, (findMinNode r).data ≤ y) := by
  obtain ⟨rest, hrest⟩ := findMinNode_cons r hne
  simp only [Ordered] at hOr
  rw [hrest] at hOr
  rcases List.pairwise_cons.mp hOr with ⟨hmin, _⟩
  constructor
  · rw [hrest]
    exact List.mem_cons_self _ _
  · intro y hy
    rw [hrest] at hy
    rcases List.mem_cons.mp hy with rfl | hy
    · exact le_refl _
    · exact le_of_lt (hmin y hy)

theorem deleteNode_nil_fst {x : Int} : (deleteNode nil x).1 = nil := rfl

theorem deleteNode_nil_snd {x : Int} : (deleteNode nil x).2 = 0 := rfl

theorem deleteNode_lt_fst {l r : AvlNode} {x nd h : Int} (hx : x < nd) :
    (deleteNode (node l nd h r) x).1 = balance (node (deleteNode l x).1 nd h r) := by
  simp [deleteNode, cmp_lt hx]

theorem deleteNode_lt_snd {l r : AvlNode} {x nd h : Int} (hx : x < nd) :
    (deleteNode (node l nd h r) x).2 = (deleteNode l x).2 := by
  simp [deleteNode, cmp_lt hx]

theorem deleteNode_gt_fst {l r : AvlNode} {x nd h : Int} (hx : nd < x) :
    (deleteNode (node l nd h r) x).1 = balance (node l nd h (deleteNode r x).1) := by
  simp [deleteNode, cmp_gt hx]

theorem deleteNode_gt_snd {l r : AvlNode} {x nd h : Int} (hx : nd < x) :
    (deleteNode (node l nd h r) x).2 = (deleteNode r x).2 := by
  simp [deleteNode, cmp_gt hx]

theorem deleteNode_both_nil_fst {x h : Int} : (deleteNode (node nil x h nil) x).1 = nil := by
  simp [deleteNode, cmp_self]

theorem deleteNode_both_nil_snd {x h : Int} : (deleteNode (node nil x h nil) x).2 = -1 := by
  simp [deleteNode, cmp_self]

theorem deleteNode_left_nil_fst {r : AvlNode} {x h : Int} (hr : r ≠ nil) :
    (deleteNode (node nil x h r) x).1 = r := by
  simp [deleteNode, cmp_self, hr]

theorem deleteNode_left_nil_snd {r : AvlNode} {x h : Int} (hr : r ≠ nil) :
    (deleteNode (node nil x h r) x).2 = -1 := by
  simp [deleteNode, cmp_self, hr]

theorem deleteNode_right_nil_fst {l : AvlNode} {x h : Int} (hl : l ≠ nil) :
    (deleteNode (node l x h nil) x).1 = l := by
  simp [deleteNode, cmp_self, hl]

theorem deleteNode_right_nil_snd {l : AvlNode} {x h : Int} (hl : l ≠ nil) :
    (deleteNode (node l x h nil) x).2 = -1 := by
  simp [deleteNode, cmp_self, hl]

theorem deleteNode_two_fst {l r : AvlNode} {x h : Int} (hl : l ≠ nil) (hr : r ≠ nil) :
    (deleteNode (node l x h r) x).1 =
      balance (node l (findMinNode r).data h (deleteNode r (findMinNode r).data).1) := by
  simp [deleteNode, cmp_self, hl, hr]

theorem deleteNode_two_snd {l r : AvlNode} {x h : Int} (hl : l ≠ nil) (hr : r ≠ nil) :
    (deleteNode (node l x h r) x).2 =
      -1 + (deleteNode r (findMinNode r).data).2 + 1 := by
  simp [deleteNode, cmp_self, hl, hr]

end Avl

namespace Avl

open AvlNode

set_option maxHeartbeats 4000000

/-- Master specification of `deleteNode` on an invariant-satisfying subtree:
invariants are preserved, the key set loses `x`, the height shrinks by at most
one (and never grows), and the length/size-delta bookkeeping is exact. -/
theorem deleteNode_spec :
    ∀ t : AvlNode, HOk t → AvlBal t → Ordered t → ∀ x : Int,
    HOk (deleteNode t x).1 ∧ AvlBal (deleteNode t x).1 ∧ Ordered (deleteNode t x).1 ∧
    (∀ y, y ∈ inorderN (deleteNode t x).1 ↔ y ∈ inorderN t ∧ y ≠ x) ∧
    realHeight t - 1 ≤ realHeight (deleteNode t x).1 ∧
    realHeight (deleteNode t x).1 ≤ realHeight t ∧
    ((inorderN (deleteNode t x).1).length : Int) =
      ((inorderN t).length : Int) - (if x ∈ inorderN t then 1 else 0) ∧
    (deleteNode t x).2 = (if x ∈ inorderN t then -1 else 0) := by
  intro t
  induction t with
  | nil =>
    intro _ _ _ x
    rw [deleteNode_nil_fst, deleteNode_nil_snd]
    refine ⟨trivial, trivial, Ordered_nil, by simp [inorderN_nil], ?_, le_refl _,
      by simp [inorderN_nil], by simp [inorderN_nil]⟩
    simp [realHeight_nil]
  | node l nd h r ihl ihr =>
    intro hH hB hO x
    rcases hH with ⟨hHl, hHr, hcache⟩
    rcases hB with ⟨hBl, hBr, hbal⟩
    rw [abs_le] at hbal
    have hOn := hO
    rcases Ordered_node.mp hO with ⟨hOl, hOr, hld, hrd⟩
    have hgel := realHeight_ge l
    have hger := realHeight_ge r
    rcases lt_trichotomy x nd with hlt | heq | hgt
    · -- delete in the left subtree
      rw [deleteNode_lt_fst hlt, deleteNode_lt_snd hlt]
      obtain ⟨j1, j2, j3, j4, j5, j6, j7, j8⟩ := ihl hHl hBl hOl x
      set l' := (deleteNode l x).1 with hseta
      obtain ⟨b1, b2, b3, b4, b5, b6⟩ :=
        balance_spec (d := nd) (h := h) j1 hHr j2 hBr (abs_le.mpr ⟨by omega, by omega⟩)
      set bt := balance (node l' nd h r) with hsetc
      have hxmem : x ∈ inorderN (node l nd h r) ↔ x ∈ inorderN l := by
        rw [mem_node_iff]
        constructor
        · rintro (hx | rfl | hx)
          · exact hx
          · exact absurd hlt (lt_irrefl _)
          · exact absurd (hrd x hx) (by omega)
        · exact fun hx => Or.inl hx
      refine ⟨b1, b2, ?_, ?_, ?_, ?_, ?_, ?_⟩
      · rw [Ordered, b3]
        have hOn2 : Ordered (node l' nd h r) := by
          rw [Ordered_node]
          exact ⟨j3, hOr, fun y hy => hld y ((j4 y).mp hy).1, hrd⟩
        simpa [Ordered, inorderN_node] using hOn2
      · intro y
        rw [b3]
        have h4 := (j4 y)
        simp only [inorderN_node, List.mem_append, List.mem_cons] at h4 ⊢
        constructor
        · rintro (hy | rfl | hy)
          · obtain ⟨hyl, hyx⟩ := h4.mp hy
            exact ⟨Or.inl hyl, hyx⟩
          · exact ⟨Or.inr (Or.inl rfl), by omega⟩
          · exact ⟨Or.inr (Or.inr hy), by have := hrd y hy; omega⟩
        · rintro ⟨hy | rfl | hy, hne⟩
          · exact Or.inl (h4.mpr ⟨hy, hne⟩)
          · exact Or.inr (Or.inl rfl)
          · exact Or.inr (Or.inr hy)
      · by_cases hbf2 : realHeight l' - realHeight r ≥ -1
        · rw [b6 (abs_le.mpr ⟨hbf2, by omega⟩)]
          simp only [realHeight_node]
          omega
        · push_neg at hbf2
          simp only [realHeight_node]
          omega
      · simp only [realHeight_node]
        omega
      · rw [b3]
        by_cases hxm : x ∈ inorderN l
        · rw [if_pos (hxmem.mpr hxm)]
          rw [if_pos hxm] at j7
          simp only [inorderN_node, List.length_append, List.length_cons]
          push_cast at j7 ⊢
          omega
        · rw [if_neg (fun hc => hxm (hxmem.mp hc))]
          rw [if_neg hxm] at j7
          simp only [inorderN_node, List.length_append, List.length_cons]
          push_cast at j7 ⊢
          omega
      · by_cases hxm : x ∈ inorderN l
        · rw [if_pos hxm] at j8
          rw [if_pos (hxmem.mpr hxm)]
          exact j8
        · rw [if_neg (fun hc => hxm (hxmem.mp hc))]
          rw [if_neg hxm] at j8
          exact j8
    · -- found the key at this node
      subst heq
      have hxin : x ∈ inorderN (node l x h r) := mem_node_iff.mpr (Or.inr (Or.inl rfl))
      by_cases hlnil : l = nil
      · by_cases hrnil : r = nil
        · subst hlnil hrnil
          rw [deleteNode_both_nil_fst, deleteNode_both_nil_snd]
          refine ⟨trivial, trivial, Ordered_nil, ?_, ?_, ?_, ?_, by rw [if_pos hxin]⟩
          · intro y
            simp only [inorderN_nil, inorderN_node, List.not_mem_nil, false_iff,
              List.mem_append, List.mem_cons]
            rintro ⟨hy | rfl | hy, hne⟩
            · simp at hy
            · exact hne rfl
            · simp at hy
          · simp [realHeight_node, realHeight_nil]
          · simp [realHeight_node, realHeight_nil]
          · rw [if_pos hxin]
            simp [inorderN_node, inorderN_nil]
        · subst hlnil
          rw [deleteNode_left_nil_fst hrnil, deleteNode_left_nil_snd hrnil]
          have hrh : realHeight r ≥ 0 := by
            cases r with
            | nil => exact absurd rfl hrnil
            | node rl rd rh2 rr =>
              simp only [realHeight_node]
              have := realHeight_ge rl
              have := realHeight_ge rr
              omega
          refine ⟨hHr, hBr, hOr, ?_, ?_, ?_, ?_, by rw [if_pos hxin]⟩
          · intro y
            rw [mem_node_iff]
            constructor
            · intro hy
              exact ⟨Or.inr (Or.inr hy), by have := hrd y hy; omega⟩
            · rintro ⟨hy | rfl | hy, hne⟩
              · simp [inorderN_nil] at hy
              · exact absurd rfl hne
              · exact hy
          · simp only [realHeight_node, realHeight_nil]
            omega
          · simp only [realHeight_node, realHeight_nil]
            omega
          · rw [if_pos hxin]
            simp only [inorderN_node, inorderN_nil, List.length_append, List.length_cons,
              List.length_nil]
            push_cast
            omega
      · by_cases hrnil : r = nil
        · subst hrnil
          rw [deleteNode_right_nil_fst hlnil, deleteNode_right_nil_snd hlnil]
          have hlh : realHeight l ≥ 0 := by
            cases l with
            | nil => exact absurd rfl hlnil
            | node ll ld lh lr =>
              simp only [realHeight_node]
              have := realHeight_ge ll
              have := realHeight_ge lr
              omega
          refine ⟨hHl, hBl, hOl, ?_, ?_, ?_, ?_, by rw [if_pos hxin]⟩
          · intro y
            rw [mem_node_iff]
            constructor
            · intro hy
              exact ⟨Or.inl hy, by have := hld y hy; omega⟩
            · rintro ⟨hy | rfl | hy, hne⟩
              · exact hy
              · exact absurd rfl hne
              · simp [inorderN_nil] at hy
          · simp only [realHeight_node, realHeight_nil]
            omega
          · simp only [realHeight_node, realHeight_nil]
            omega
          · rw [if_pos hxin]
            simp only [inorderN_node, inorderN_nil, List.length_append, List.length_cons,
              List.length_nil]
            push_cast
            omega
        · -- two children: successor replacement
          rw [deleteNode_two_fst hlnil hrnil, deleteNode_two_snd hlnil hrnil]
          obtain ⟨hsd, hsdle⟩ := findMinNode_facts r hrnil hOr
          set sd := (findMinNode r).data with hsetsd
          have hxsd : x < sd := hrd sd hsd
          obtain ⟨j1, j2, j3, j4, j5, j6, j7, j8⟩ := ihr hHr hBr hOr sd
          set r' := (deleteNode r sd).1 with hseta
          obtain ⟨b1, b2, b3, b4, b5, b6⟩ :=
            balance_spec (d := sd) (h := h) hHl j1 hBl j2 (abs_le.mpr ⟨by omega, by omega⟩)
          set bt := balance (node l sd h r') with hsetc
          rw [if_pos hsd] at j7 j8
          refine ⟨b1, b2, ?_, ?_, ?_, ?_, ?_, ?_⟩
          · rw [Ordered, b3]
            have hOn2 : Ordered (node l sd h r') := by
              rw [Ordered_node]
              refine ⟨hOl, j3, ?_, ?_⟩
              · intro y hy
                exact lt_trans (hld y hy) hxsd
              · intro y hy
                obtain ⟨hyr, hysd⟩ := (j4 y).mp hy
                exact lt_of_le_of_ne (hsdle y hyr) (Ne.symm hysd)
            simpa [Ordered, inorderN_node] using hOn2
          · intro y
            rw [b3]
            simp only [inorderN_node, List.mem_append, List.mem_cons]
            constructor
            · rintro (hy | rfl | hy)
              · exact ⟨Or.inl hy, by have := hld y hy; omega⟩
              · exact ⟨Or.inr (Or.inr hsd), by omega⟩
              · obtain ⟨hyr, hysd⟩ := (j4 y).mp hy
                exact ⟨Or.inr (Or.inr hyr), by have := hrd y hyr; omega⟩
            · rintro ⟨hy | rfl | hy, hne⟩
              · exact Or.inl hy
              · exact absurd rfl hne
              · by_cases hysd : y = sd
                · exact Or.inr (Or.inl hysd)
                · exact Or.inr (Or.inr ((j4 y).mpr ⟨hy, hysd⟩))
          · by_cases hbf2 : realHeight l - realHeight r' ≤ 1
            · rw [b6 (abs_le.mpr ⟨by omega, hbf2⟩)]
              simp only [realHeight_node]
              omega
            · push_neg at hbf2
              simp only [realHeight_node]
              omega
          · simp only [realHeight_node]
            omega
          · rw [b3, if_pos hxin]
            simp only [inorderN_node, List.length_append, List.length_cons]
            push_cast at j7 ⊢
            omega
          · rw [if_pos hxin, j8]
            omega
    · -- delete in the right subtree
      rw [deleteNode_gt_fst hgt, deleteNode_gt_snd hgt]
      obtain ⟨j1, j2, j3, j4, j5, j6, j7, j8⟩ := ihr hHr hBr hOr x
      set r' := (deleteNode r x).1 with hseta
      obtain ⟨b1, b2, b3, b4, b5, b6⟩ :=
        balance_spec (d := nd) (h := h) hHl j1 hBl j2 (abs_le.mpr ⟨by omega, by omega⟩)
      set bt := balance (node l nd h r') with hsetc
      have hxmem : x ∈ inorderN (node l nd h r) ↔ x ∈ inorderN r := by
        rw [mem_node_iff]
        constructor
        · rintro (hx | rfl | hx)
          · exact absurd (hld x hx) (by omega)
          · exact absurd hgt (lt_irrefl _)
          · exact hx
        · exact fun hx => Or.inr (Or.inr hx)
      refine ⟨b1, b2, ?_, ?_, ?_, ?_, ?_, ?_⟩
      · rw [Ordered, b3]
        have hOn2 : Ordered (node l nd h r') := by
          rw [Ordered_node]
          exact ⟨hOl, j3, hld, fun y hy => hrd y ((j4 y).mp hy).1⟩
        simpa [Ordered, inorderN_node] using hOn2
      · intro y
        rw [b3]
        have h4 := (j4 y)
        simp only [inorderN_node, List.mem_append, List.mem_cons] at h4 ⊢
        constructor
        · rintro (hy | rfl | hy)
          · exact ⟨Or.inl hy, by have := hld y hy; omega⟩
          · exact ⟨Or.inr (Or.inl rfl), by omega⟩
          · obtain ⟨hyr, hyx⟩ := h4.mp hy
            exact ⟨Or.inr (Or.inr hyr), hyx⟩
        · rintro ⟨hy | rfl | hy, hne⟩
          · exact Or.inl hy
          · exact Or.inr (Or.inl rfl)
          · exact Or.inr (Or.inr (h4.mpr ⟨hy, hne⟩))
      · by_cases hbf2 : realHeight l - realHeight r' ≤ 1
        · rw [b6 (abs_le.mpr ⟨by omega, hbf2⟩)]
          simp only [realHeight_node]
          omega
        · push_neg at hbf2
          simp only [realHeight_node]
          omega
      · simp only [realHeight_node]
        omega
      · rw [b3]
        by_cases hxm : x ∈ inorderN r
        · rw [if_pos (hxmem.mpr hxm)]
          rw [if_pos hxm] at j7
          simp only [inorderN_node, List.length_append, List.length_cons]
          push_cast at j7 ⊢
          omega
        · rw [if_neg (fun hc => hxm (hxmem.mp hc))]
          rw [if_neg hxm] at j7
          simp only [inorderN_node, List.length_append, List.length_cons]
          push_cast at j7 ⊢
          omega
      · by_cases hxm : x ∈ inorderN r
        · rw [if_pos hxm] at j8
          rw [if_pos (hxmem.mpr hxm)]
          exact j8
        · rw [if_neg (fun hc => hxm (hxmem.mp hc))]
          rw [if_neg hxm] at j8
          exact j8

end Avl

namespace Avl

open AvlNode

set_option maxHeartbeats 1600000

/-! ## Validators return true on invariant-satisfying trees -/

theorem validateBST_node_eq {l r : AvlNode} {d h : Int} {mn mx : Option Int} :
    validateBST (node l d h r) mn mx =
      if ((match mn with | some m => decide (cmp d m ≤ 0) | none => false) ||
          (match mx with | some m => decide (cmp d m ≥ 0) | none => false))
      then false
      else validateBST l mn (some d) && validateBST r (some d) mx := rfl

theorem validateBST_true :
    ∀ t : AvlNode, Ordered t → ∀ mn mx : Option Int,
    (∀ lo, mn = some lo → ∀ y ∈ inorderN t, lo < y) →
    (∀ hi, mx = some hi → ∀ y ∈ inorderN t, y < hi) →
    validateBST t mn mx = true := by
  intro t
  induction t with
  | nil => intro _ _ _ _ _; rfl
  | node l d h r ihl ihr =>
    intro hO mn mx hlo hhi
    rcases Ordered_node.mp hO with ⟨hOl, hOr, hld, hrd⟩
    have hdin : d ∈ inorderN (node l d h r) := mem_node_iff.mpr (Or.inr (Or.inl rfl))
    have hL : validateBST l mn (some d) = true :=
      ihl hOl mn (some d)
        (fun lo hm y hy => hlo lo hm y (mem_node_iff.mpr (Or.inl hy)))
        (fun hi hm y hy => (Option.some.inj hm) ▸ hld y hy)
    have hR : validateBST r (some d) mx = true :=
      ihr hOr (some d) mx
        (fun lo hm y hy => (Option.some.inj hm) ▸ hrd y hy)
        (fun hi hm y hy => hhi hi hm y (mem_node_iff.mpr (Or.inr (Or.inr hy))))
    cases mn with
    | none =>
      cases mx with
      | none => simp [validateBST_node_eq, hL, hR]
      | some m2 => simp [validateBST_node_eq, hL, hR, cmp_lt (hhi m2 rfl d hdin)]
    | some m =>
      cases mx with
      | none => simp [validateBST_node_eq, hL, hR, cmp_gt (hlo m rfl d hdin)]
      | some m2 =>
        simp [validateBST_node_eq, hL, hR, cmp_gt (hlo m rfl d hdin),
          cmp_lt (hhi m2 rfl d hdin)]

theorem validateAVL_node_eq {l r : AvlNode} {d h : Int} :
    validateAVL (node l d h r) =
      if |getBalanceFactor (node l d h r)| > 1 then false
      else if h ≠ 1 + max (getHeight l) (getHeight r) then false
      else validateAVL l && validateAVL r := rfl

theorem validateAVL_true : ∀ t : AvlNode, HOk t → AvlBal t → validateAVL t = true := by
  intro t
  induction t with
  | nil => intro _ _; rfl
  | node l d h r ihl ihr =>
    intro hH hB
    rcases hH with ⟨hHl, hHr, hcache⟩
    rcases hB with ⟨hBl, hBr, hbal⟩
    rw [abs_le] at hbal
    rw [validateAVL_node_eq, getBalanceFactor_node, getHeight_eq hHl, getHeight_eq hHr]
    rw [if_neg (by simp only [not_lt]; exact abs_le.mpr (by constructor <;> omega)),
      if_neg (fun hc => hc hcache), ihl hHl hBl, ihr hHr hBr]
    rfl

end Avl

namespace Avl

open AvlNode

set_option maxHeartbeats 1600000

/-! ## Tree-handle level lemmas -/

theorem insert_root (t : AvlBinarySearchTree) (x : Int) :
    (t.insert x).root = (insertNode t.root x).1 := rfl

theorem insert_size (t : AvlBinarySearchTree) (x : Int) :
    (t.insert x).size = t.size + (insertNode t.root x).2 + 1 := rfl

theorem delete_root (t : AvlBinarySearchTree) (x : Int) :
    (t.delete x).2.root = (deleteNode t.root x).1 := rfl

theorem delete_size (t : AvlBinarySearchTree) (x : Int) :
    (t.delete x).2.size = t.size + (deleteNode t.root x).2 := rfl

theorem delete_fst (t : AvlBinarySearchTree) (x : Int) :
    (t.delete x).1 = decide (t.size + (deleteNode t.root x).2 < t.size) := rfl

theorem insert_valid {t : AvlBinarySearchTree} (hV : ValidTree t) (x : Int) :
    ValidTree (t.insert x) := by
  obtain ⟨⟨hH, hB, hO⟩, hsz⟩ := hV
  obtain ⟨i1, i2, i3, i4, i5, i6, i7, i8⟩ := insertNode_spec x t.root hH hB hO
  refine ⟨?_, ?_⟩
  · rw [insert_root]
    exact ⟨i1, i2, i3⟩
  · rw [insert_size, insert_root, i8, i7, hsz]
    by_cases hm : x ∈ inorderN t.root
    · rw [if_pos hm, if_pos hm]
      ring
    · rw [if_neg hm, if_neg hm]
      ring

theorem delete_valid {t : AvlBinarySearchTree} (hV : ValidTree t) (x : Int) :
    ValidTree (t.delete x).2 := by
  obtain ⟨⟨hH, hB, hO⟩, hsz⟩ := hV
  obtain ⟨j1, j2, j3, j4, j5, j6, j7, j8⟩ := deleteNode_spec t.root hH hB hO x
  refine ⟨?_, ?_⟩
  · rw [delete_root]
    exact ⟨j1, j2, j3⟩
  · rw [delete_size, delete_root, j8, j7, hsz]
    by_cases hm : x ∈ inorderN t.root
    · rw [if_pos hm, if_pos hm]
      ring
    · rw [if_neg hm, if_neg hm]
      ring

theorem empty_valid : ValidTree AvlBinarySearchTree.empty :=
  ⟨⟨trivial, trivial, List.Pairwise.nil⟩, rfl⟩

theorem applyOp_valid {t : AvlBinarySearchTree} (hV : ValidTree t) (op : Op) :
    ValidTree (applyOp t op) := by
  cases op with
  | ins k => exact insert_valid hV k
  | del k => exact delete_valid hV k

theorem foldl_applyOp_valid :
    ∀ (ops : List Op) (t : AvlBinarySearchTree), ValidTree t →
      ValidTree (ops.foldl applyOp t) := by
  intro ops
  induction ops with
  | nil => intro t hV; exact hV
  | cons op ops ih =>
    intro t hV
    rw [List.foldl_cons]
    exact ih _ (applyOp_valid hV op)

theorem runOps_valid (ops : List Op) : ValidTree (runOps ops) :=
  foldl_applyOp_valid ops _ empty_valid

theorem foldl_insert_valid :
    ∀ (ks : List Int) (t : AvlBinarySearchTree), ValidTree t →
      ValidTree (ks.foldl AvlBinarySearchTree.insert t) := by
  intro ks
  induction ks with
  | nil => intro t hV; exact hV
  | cons k ks ih =>
    intro t hV
    rw [List.foldl_cons]
    exact ih _ (insert_valid hV k)

theorem buildList_valid (ks : List Int) : ValidTree (buildList ks) :=
  foldl_insert_valid ks _ empty_valid

theorem foldl_insert_mem :
    ∀ (ks : List Int) (t : AvlBinarySearchTree), ValidTree t → ∀ y : Int,
      (y ∈ inorderN ((ks.foldl AvlBinarySearchTree.insert t).root) ↔
        y ∈ inorderN t.root ∨ y ∈ ks) := by
  intro ks
  induction ks with
  | nil => intro t hV y; simp
  | cons k ks ih =>
    intro t hV y
    rw [List.foldl_cons]
    obtain ⟨hH, hB, hO⟩ := hV.1
    obtain ⟨_, _, _, i4, _⟩ := insertNode_spec k t.root hH hB hO
    rw [ih _ (insert_valid hV k) y, insert_root, i4 y]
    simp only [List.mem_cons]
    constructor
    · rintro ((hy | rfl) | hy)
      · exact Or.inl hy
      · exact Or.inr (Or.inl rfl)
      · exact Or.inr (Or.inr hy)
    · rintro (hy | rfl | hy)
      · exact Or.inl (Or.inl hy)
      · exact Or.inl (Or.inr rfl)
      · exact Or.inr hy

theorem buildList_mem (ks : List Int) (y : Int) :
    y ∈ inorderN (buildList ks).root ↔ y ∈ ks := by
  rw [buildList, foldl_insert_mem ks _ empty_valid y]
  simp [AvlBinarySearchTree.empty, inorderN_nil]

/-- Inserting a key that is already stored returns the tree unchanged (and the
compensating size delta `-1`). -/
theorem insertNode_mem_eq :
    ∀ t : AvlNode, HOk t → AvlBal t → Ordered t → ∀ x : Int, x ∈ inorderN t →
      insertNode t x = (t, -1) := by
  intro t
  induction t with
  | nil => intro _ _ _ x hx; simp [inorderN_nil] at hx
  | node l nd h r ihl ihr =>
    intro hH hB hO x hx
    rcases hH with ⟨hHl, hHr, hcache⟩
    rcases hB with ⟨hBl, hBr, hbal⟩
    rw [abs_le] at hbal
    rcases Ordered_node.mp hO with ⟨hOl, hOr, hld, hrd⟩
    rcases lt_trichotomy x nd with hlt | heq | hgt
    · have hxl : x ∈ inorderN l := by
        rcases mem_node_iff.mp hx with hy | rfl | hy
        · exact hy
        · exact absurd hlt (lt_irrefl _)
        · exact absurd (hrd x hy) (by omega)
      have hIH := ihl hHl hBl hOl x hxl
      have hf : (insertNode l x).1 = l := by rw [hIH]
      have hs : (insertNode l x).2 = -1 := by rw [hIH]
      refine Prod.ext ?_ ?_
      · rw [insertNode_lt_fst hlt, hf,
          balance_eq_noRot_real hHl hHr (by omega) (by omega), hcache]
      · rw [insertNode_lt_snd hlt, hs]
    · subst heq
      exact Prod.ext insertNode_dup_fst insertNode_dup_snd
    · have hxr : x ∈ inorderN r := by
        rcases mem_node_iff.mp hx with hy | rfl | hy
        · exact absurd (hld x hy) (by omega)
        · exact absurd hgt (lt_irrefl _)
        · exact hy
      have hIH := ihr hHr hBr hOr x hxr
      have hf : (insertNode r x).1 = r := by rw [hIH]
      have hs : (insertNode r x).2 = -1 := by rw [hIH]
      refine Prod.ext ?_ ?_
      · rw [insertNode_gt_fst hgt, hf,
          balance_eq_noRot_real hHl hHr (by omega) (by omega), hcache]
      · rw [insertNode_gt_snd hgt, hs]

end Avl

namespace Avl

open AvlNode

set_option maxHeartbeats 1600000

/-! ## kthSmallest -/

theorem kthHelper_some (t : AvlNode) (k c v : Int) :
    kthSmallestHelper t k (c, some v) = (c, some v) := by
  cases t with
  | nil => rfl
  | node l d h r => simp [kthSmallestHelper]

theorem kthHelper_node_none {l r : AvlNode} {d h k c : Int} :
    kthSmallestHelper (node l d h r) k (c, none) =
      (if (kthSmallestHelper l k (c, none)).1 + 1 = k
       then ((kthSmallestHelper l k (c, none)).1 + 1, some d)
       else kthSmallestHelper r k
         ((kthSmallestHelper l k (c, none)).1 + 1, (kthSmallestHelper l k (c, none)).2)) := by
  simp [kthSmallestHelper]

/-- Behaviour of `kthSmallestHelper` started with count `c < k` and no value:
either the whole subtree is consumed without reaching `k`, or the `k`-th
visited key (the in-order element at offset `k - c - 1`) is produced. -/
theorem kthHelper_spec :
    ∀ (t : AvlNode) (k c : Int), c < k →
      (c + ((inorderN t).length : Int) < k →
        kthSmallestHelper t k (c, none) = (c + (inorderN t).length, none)) ∧
      (k ≤ c + ((inorderN t).length : Int) →
        ∃ c2 : Int, k ≤ c2 ∧
          kthSmallestHelper t k (c, none) = (c2, (inorderN t)[(k - c - 1).toNat]?)) := by
  intro t
  induction t with
  | nil =>
    intro k c hck
    constructor
    · intro _
      simp [kthSmallestHelper, inorderN_nil]
    · intro hk
      exfalso
      simp only [inorderN_nil, List.length_nil] at hk
      push_cast at hk
      omega
  | node l d h r ihl ihr =>
    intro k c hck
    obtain ⟨ihl1, ihl2⟩ := ihl k c hck
    by_cases hA : c + ((inorderN l).length : Int) < k
    · have hL := ihl1 hA
      by_cases hEq : c + ((inorderN l).length : Int) + 1 = k
      · have heq : kthSmallestHelper (node l d h r) k (c, none) =
            (c + (inorderN l).length + 1, some d) := by
          simp only [kthHelper_node_none, hL]
          rw [if_pos hEq]
        constructor
        · intro hlt2
          exfalso
          simp only [inorderN_node, List.length_append, List.length_cons] at hlt2
          push_cast at hlt2
          omega
        · intro hk
          refine ⟨c + (inorderN l).length + 1, by omega, ?_⟩
          rw [heq]
          have hidx : (k - c - 1).toNat = (inorderN l).length := by omega
          have hval : (inorderN (node l d h r))[(k - c - 1).toNat]? = some d := by
            simp only [inorderN_node]
            rw [hidx, List.getElem?_append_right (le_refl _)]
            simp
          rw [hval]
      · have heq : kthSmallestHelper (node l d h r) k (c, none) =
            kthSmallestHelper r k (c + (inorderN l).length + 1, none) := by
          simp only [kthHelper_node_none, hL]
          rw [if_neg hEq]
        obtain ⟨ihr1, ihr2⟩ := ihr k (c + (inorderN l).length + 1) (by omega)
        constructor
        · intro hlt2
          have harr : c + ((inorderN l).length : Int) + 1 + (inorderN r).length < k := by
            simp only [inorderN_node, List.length_append, List.length_cons] at hlt2
            push_cast at hlt2 ⊢
            omega
          rw [heq, ihr1 harr]
          have harith : c + ((inorderN l).length : Int) + 1 + (inorderN r).length =
              c + ((inorderN (node l d h r)).length : Int) := by
            simp only [inorderN_node, List.length_append, List.length_cons]
            push_cast
            ring
          rw [harith]
        · intro hk
          have hk2 : k ≤ c + ((inorderN l).length : Int) + 1 + (inorderN r).length := by
            simp only [inorderN_node, List.length_append, List.length_cons] at hk
            push_cast at hk ⊢
            omega
          obtain ⟨c2, hc2, hr2⟩ := ihr2 hk2
          refine ⟨c2, hc2, ?_⟩
          rw [heq, hr2]
          have hval : (inorderN (node l d h r))[(k - c - 1).toNat]? =
              (inorderN r)[(k - (c + (inorderN l).length + 1) - 1).toNat]? := by
            simp only [inorderN_node]
            have hlt3 : c + ((inorderN l).length : Int) + 1 < k := by
              rcases lt_or_eq_of_le (by omega : c + ((inorderN l).length : Int) + 1 ≤ k) with
                hlt3 | heq3
              · exact hlt3
              · exact absurd heq3 hEq
            have e1 : (((k - c - 1).toNat : Int)) = k - c - 1 :=
              Int.toNat_of_nonneg (by omega)
            have e2 : (((k - (c + (inorderN l).length + 1) - 1).toNat : Int)) =
                k - (c + (inorderN l).length + 1) - 1 :=
              Int.toNat_of_nonneg (by omega)
            have hidx2 : (k - c - 1).toNat =
                (inorderN l).length + ((k - (c + (inorderN l).length + 1) - 1).toNat + 1) := by
              have hcast : (((k - c - 1).toNat : Int)) =
                  ((inorderN l).length : Int) +
                    ((((k - (c + (inorderN l).length + 1) - 1).toNat : Int)) + 1) := by
                rw [e1, e2]
                ring
              exact_mod_cast hcast
            rw [hidx2, List.getElem?_append_right (Nat.le_add_right _ _),
              Nat.add_sub_cancel_left, List.getElem?_cons_succ]
          rw [hval]
    · push_neg at hA
      obtain ⟨c2, hc2, hL2⟩ := ihl2 hA
      have hidxlt : (k - c - 1).toNat < (inorderN l).length := by omega
      have helem := List.getElem?_eq_getElem hidxlt
      have heq : kthSmallestHelper (node l d h r) k (c, none) =
          (c2 + 1, some ((inorderN l)[(k - c - 1).toNat])) := by
        simp only [kthHelper_node_none, hL2, helem]
        rw [if_neg (by omega)]
        exact kthHelper_some r k (c2 + 1) _
      constructor
      · intro hlt2
        exfalso
        simp only [inorderN_node, List.length_append, List.length_cons] at hlt2
        push_cast at hlt2
        omega
      · intro hk
        refine ⟨c2 + 1, by omega, ?_⟩
        rw [heq]
        have hval : (inorderN (node l d h r))[(k - c - 1).toNat]? =
            some ((inorderN l)[(k - c - 1).toNat]) := by
          simp only [inorderN_node]
          rw [List.getElem?_append_left hidxlt, helem]
        rw [hval]

theorem kthSmallest_out_of_range {t : AvlBinarySearchTree} {k : Int}
    (h : k ≤ 0 ∨ t.size < k) : t.kthSmallest k = none := by
  rw [AvlBinarySearchTree.kthSmallest, if_pos h]

theorem kthSmallest_in_range {t : AvlBinarySearchTree} (hV : ValidTree t) {k : Int}
    (h1 : 1 ≤ k) (h2 : k ≤ t.size) :
    t.kthSmallest k = (inorderN t.root)[(k - 1).toNat]? := by
  have hsz := hV.2
  rw [AvlBinarySearchTree.kthSmallest, if_neg (by omega)]
  obtain ⟨_, p2⟩ := kthHelper_spec t.root k 0 (by omega)
  obtain ⟨c2, _, heq⟩ := p2 (by omega)
  rw [heq]
  norm_num

/-! ## lowestCommonAncestor -/

theorem cmp_lt_iff {a b : Int} : cmp a b < 0 ↔ a < b := by
  rw [cmp]
  split_ifs <;> omega

theorem cmp_pos_iff {a b : Int} : cmp a b > 0 ↔ b < a := by
  rw [cmp]
  split_ifs <;> omega

theorem findLCA_node_eq {l r : AvlNode} {nd h v1 v2 : Int} :
    findLCA (node l nd h r) v1 v2 =
      if cmp v1 nd < 0 ∧ cmp v2 nd < 0 then findLCA l v1 v2
      else if cmp v1 nd > 0 ∧ cmp v2 nd > 0 then findLCA r v1 v2
      else node l nd h r := rfl

/-- On a BST-ordered subtree, the LCA descent never falls off the tree when
both query keys are stored in it. -/
theorem findLCA_ne_nil :
    ∀ t : AvlNode, Ordered t → ∀ a b : Int, a ∈ inorderN t → b ∈ inorderN t →
      findLCA t a b ≠ nil := by
  intro t
  induction t with
  | nil => intro _ a b ha _; simp [inorderN_nil] at ha
  | node l nd h r ihl ihr =>
    intro hO a b ha hb
    rcases Ordered_node.mp hO with ⟨hOl, hOr, hld, hrd⟩
    rw [findLCA_node_eq]
    by_cases h1 : cmp a nd < 0 ∧ cmp b nd < 0
    · rw [if_pos h1]
      obtain ⟨h1a, h1b⟩ := h1
      rw [cmp_lt_iff] at h1a h1b
      have hal : a ∈ inorderN l := by
        rcases mem_node_iff.mp ha with hy | rfl | hy
        · exact hy
        · exact absurd h1a (lt_irrefl _)
        · exact absurd (hrd a hy) (by omega)
      have hbl : b ∈ inorderN l := by
        rcases mem_node_iff.mp hb with hy | rfl | hy
        · exact hy
        · exact absurd h1b (lt_irrefl _)
        · exact absurd (hrd b hy) (by omega)
      exact ihl hOl a b hal hbl
    · rw [if_neg h1]
      by_cases h2 : cmp a nd > 0 ∧ cmp b nd > 0
      · rw [if_pos h2]
        obtain ⟨h2a, h2b⟩ := h2
        rw [cmp_pos_iff] at h2a h2b
        have har : a ∈ inorderN r := by
          rcases mem_node_iff.mp ha with hy | rfl | hy
          · exact absurd (hld a hy) (by omega)
          · exact absurd h2a (lt_irrefl _)
          · exact hy
        have hbr : b ∈ inorderN r := by
          rcases mem_node_iff.mp hb with hy | rfl | hy
          · exact absurd (hld b hy) (by omega)
          · exact absurd h2b (lt_irrefl _)
          · exact hy
        exact ihr hOr a b har hbr
      · rw [if_neg h2]
        exact fun hc => AvlNode.noConfusion hc

/-! ## Sorted lists with the same members are equal -/

theorem sorted_eq_of_mem_iff {a b : List Int} (ha : a.Pairwise (· < ·))
    (hb : b.Pairwise (· < ·)) (hm : ∀ y, y ∈ a ↔ y ∈ b) : a = b := by
  haveI : IsAntisymm Int (· < ·) := ⟨fun x y h1 h2 => absurd h2 (by omega)⟩
  exact List.eq_of_perm_of_sorted ((List.perm_ext_iff_of_nodup ha.nodup hb.nodup).mpr hm) ha hb

end Avl

namespace Avl

open AvlNode

set_option maxHeartbeats 1600000

/-! ## search -/

theorem cmp_eq_zero_iff {a b : Int} : cmp a b = 0 ↔ a = b := by
  rcases lt_trichotomy a b with h | h | h
  · rw [cmp_lt h]
    exact iff_of_false (by decide) (by omega)
  · rw [h, cmp_self]
    exact iff_of_true rfl rfl
  · rw [cmp_gt h]
    exact iff_of_false (by decide) (by omega)

theorem searchNode_node_eq {l r : AvlNode} {nd h x : Int} :
    searchNode (node l nd h r) x =
      if cmp x nd = 0 then node l nd h r
      else if cmp x nd < 0 then searchNode l x
      else searchNode r x := rfl

theorem searchNode_ne_nil_iff :
    ∀ t : AvlNode, Ordered t → ∀ x : Int, (searchNode t x ≠ nil ↔ x ∈ inorderN t) := by
  intro t
  induction t with
  | nil => intro _ x; simp [searchNode, inorderN_nil]
  | node l nd h r ihl ihr =>
    intro hO x
    rcases Ordered_node.mp hO with ⟨hOl, hOr, hld, hrd⟩
    rw [searchNode_node_eq]
    rcases lt_trichotomy x nd with hlt | heq | hgt
    · rw [if_neg (by rw [cmp_eq_zero_iff]; omega), if_pos (by rw [cmp_lt_iff]; omega)]
      rw [ihl hOl x, mem_node_iff]
      constructor
      · exact fun hy => Or.inl hy
      · rintro (hy | rfl | hy)
        · exact hy
        · exact absurd hlt (lt_irrefl _)
        · exact absurd (hrd x hy) (by omega)
    · subst heq
      rw [if_pos cmp_self]
      exact iff_of_true (fun hc => AvlNode.noConfusion hc)
        (mem_node_iff.mpr (Or.inr (Or.inl rfl)))
    · rw [if_neg (by rw [cmp_eq_zero_iff]; omega), if_neg (by rw [cmp_lt_iff]; omega)]
      rw [ihr hOr x, mem_node_iff]
      constructor
      · exact fun hy => Or.inr (Or.inr hy)
      · rintro (hy | rfl | hy)
        · exact absurd (hld x hy) (by omega)
        · exact absurd hgt (lt_irrefl _)
        · exact hy

theorem search_iff_mem {t : AvlBinarySearchTree} (hV : ValidTree t) (x : Int) :
    t.search x = true ↔ x ∈ t.inorderTraversal := by
  rw [AvlBinarySearchTree.search, decide_eq_true_iff, inorderTraversal_eq]
  exact searchNode_ne_nil_iff t.root hV.1.2.2 x

end Avl

namespace Avl

open AvlNode

set_option maxHeartbeats 1600000

/-! ## The claims -/

/-- Claim C1: for every finite sequence of `insert` and `delete` calls applied
to an initially empty `AvlBinarySearchTree`, the resulting state (and hence
the state after each individual call, since every prefix is itself such a
sequence) satisfies `isValidBST() = true`, `isValidAVL() = true`, and
`inorderTraversal()` is strictly ascending with no duplicate keys. -/
theorem claim_C1 (ops : List Op) :
    (runOps ops).isValidBST = true ∧ (runOps ops).isValidAVL = true ∧
    List.Pairwise (· < ·) ((runOps ops).inorderTraversal) := by
  obtain ⟨⟨hH, hB, hO⟩, _⟩ := runOps_valid ops
  refine ⟨?_, ?_, ?_⟩
  · exact validateBST_true _ hO none none (fun lo hm => nomatch hm) (fun hi hm => nomatch hm)
  · exact validateAVL_true _ hH hB
  · rw [inorderTraversal_eq]
    exact hO

/-- Claim C2: on a node whose two children (possibly absent) satisfy the AVL
invariant with correct cached heights and whose own (recomputed) balance
factor lies in `[-2, 2]`, `balance` returns a subtree whose cached heights
are correct, whose root balance factor is in `{-1, 0, 1}`, and whose in-order
key sequence equals the input's. -/
theorem claim_C2 {l r : AvlNode} {d h : Int}
    (hL : HOk l) (hR : HOk r) (bL : AvlBal l) (bR : AvlBal r)
    (hbf1 : -2 ≤ realHeight l - realHeight r) (hbf2 : realHeight l - realHeight r ≤ 2) :
    HOk (balance (node l d h r)) ∧
    (-1 ≤ getBalanceFactor (balance (node l d h r)) ∧
      getBalanceFactor (balance (node l d h r)) ≤ 1) ∧
    inorderN (balance (node l d h r)) = inorderN (node l d h r) := by
  obtain ⟨b1, b2, b3, _, _, _⟩ :=
    balance_spec (d := d) (h := h) hL hR bL bR (abs_le.mpr ⟨hbf1, hbf2⟩)
  refine ⟨b1, ?_, by rw [b3, inorderN_node]⟩
  rcases hbc : balance (node l d h r) with _ | ⟨l2, d2, h2, r2⟩
  · rw [hbc] at b3
    exfalso
    simp only [inorderN_nil] at b3
    exact absurd b3.symm (List.append_ne_nil_of_right_ne_nil _ (List.cons_ne_nil _ _))
  · rw [hbc] at b1 b2
    obtain ⟨hH2l, hH2r, _⟩ := b1
    obtain ⟨_, _, hb2⟩ := b2
    rw [abs_le] at hb2
    rw [getBalanceFactor_node, getHeight_eq hH2l, getHeight_eq hH2r]
    exact hb2

theorem claim_C2_witness :
    (HOk (node (node nil 1 0 nil) 2 1 nil) ∧ HOk (nil : AvlNode) ∧
     AvlBal (node (node nil 1 0 nil) 2 1 nil) ∧ AvlBal (nil : AvlNode) ∧
     -2 ≤ realHeight (node (node nil 1 0 nil) 2 1 nil) - realHeight nil ∧
     realHeight (node (node nil 1 0 nil) 2 1 nil) - realHeight nil ≤ 2) ∧
    (HOk (balance (node (node (node nil 1 0 nil) 2 1 nil) 5 99 nil)) ∧
     (-1 ≤ getBalanceFactor (balance (node (node (node nil 1 0 nil) 2 1 nil) 5 99 nil)) ∧
       getBalanceFactor (balance (node (node (node nil 1 0 nil) 2 1 nil) 5 99 nil)) ≤ 1) ∧
     inorderN (balance (node (node (node nil 1 0 nil) 2 1 nil) 5 99 nil)) =
       inorderN (node (node (node nil 1 0 nil) 2 1 nil) 5 99 nil)) :=
  ⟨⟨by decide, by decide, by decide, by decide, by decide, by decide⟩,
    claim_C2 (by decide) (by decide) (by decide) (by decide) (by decide) (by decide)⟩

/-- Claim C3: on every valid tree state, `delete(k)` returns `true` iff `k`
was present (equivalently, iff `search(k)` held before the call), `count()`
drops by exactly one iff the call returned `true`, and a `false` return
leaves `count()` unchanged.  The two-children (successor-replacement) case is
covered by the generality of the statement. -/
theorem claim_C3 (t : AvlBinarySearchTree) (hV : ValidTree t) (k : Int) :
    ((t.delete k).1 = true ↔ k ∈ t.inorderTraversal) ∧
    ((t.delete k).1 = true ↔ t.search k = true) ∧
    ((t.delete k).2.count = t.count - 1 ↔ (t.delete k).1 = true) ∧
    ((t.delete k).1 = false → (t.delete k).2.count = t.count) := by
  have hsearch := search_iff_mem hV k
  obtain ⟨⟨hH, hB, hO⟩, hsz⟩ := hV
  obtain ⟨_, _, _, _, _, _, _, j8⟩ := deleteNode_spec t.root hH hB hO k
  rw [inorderTraversal_eq] at hsearch ⊢
  by_cases hm : k ∈ inorderN t.root
  · rw [if_pos hm] at j8
    have hb : (t.delete k).1 = true := by
      rw [delete_fst, j8, decide_eq_true_iff]
      omega
    have hc : (t.delete k).2.count = t.count - 1 := by
      show t.size + (deleteNode t.root k).2 = t.size - 1
      rw [j8]
      ring
    refine ⟨iff_of_true hb hm, iff_of_true hb (hsearch.mpr hm), iff_of_true hc hb, ?_⟩
    intro hf
    rw [hb] at hf
    exact absurd hf (by simp)
  · rw [if_neg hm] at j8
    have hb : (t.delete k).1 = false := by
      rw [delete_fst, j8, decide_eq_false_iff_not]
      omega
    have hc : (t.delete k).2.count = t.count := by
      show t.size + (deleteNode t.root k).2 = t.size
      rw [j8]
      ring
    refine ⟨iff_of_false (by rw [hb]; simp) hm,
      iff_of_false (by rw [hb]; simp) (fun hs => hm (hsearch.mp hs)),
      iff_of_false ?_ (by rw [hb]; simp), fun _ => hc⟩
    rw [hc]
    show ¬(t.count = t.count - 1)
    omega

theorem claim_C3_witness :
    ValidTree (buildList [2, 1, 3]) ∧
    ((((buildList [2, 1, 3]).delete 2).1 = true ↔
        2 ∈ (buildList [2, 1, 3]).inorderTraversal) ∧
     (((buildList [2, 1, 3]).delete 2).1 = true ↔ (buildList [2, 1, 3]).search 2 = true) ∧
     (((buildList [2, 1, 3]).delete 2).2.count = (buildList [2, 1, 3]).count - 1 ↔
        ((buildList [2, 1, 3]).delete 2).1 = true) ∧
     (((buildList [2, 1, 3]).delete 2).1 = false →
        ((buildList [2, 1, 3]).delete 2).2.count = (buildList [2, 1, 3]).count)) :=
  ⟨by decide, claim_C3 (buildList [2, 1, 3]) (by decide) 2⟩

/-- Claim C4: on every valid tree state already containing `k`, a second
`insert(k)` leaves both `count()` and `inorderTraversal()` unchanged: the
duplicate branch of `insertNode` returns the node unmodified and its `-1`
delta exactly compensates the unconditional `size++` in `insert`. -/
theorem claim_C4 (t : AvlBinarySearchTree) (hV : ValidTree t) (k : Int)
    (hk : k ∈ t.inorderTraversal) :
    (t.insert k).count = t.count ∧ (t.insert k).inorderTraversal = t.inorderTraversal := by
  obtain ⟨⟨hH, hB, hO⟩, hsz⟩ := hV
  rw [inorderTraversal_eq] at hk
  have heq := insertNode_mem_eq t.root hH hB hO k hk
  have hf : (insertNode t.root k).1 = t.root := by rw [heq]
  have hs : (insertNode t.root k).2 = -1 := by rw [heq]
  constructor
  · show t.size + (insertNode t.root k).2 + 1 = t.size
    rw [hs]
    ring
  · rw [inorderTraversal_eq, inorderTraversal_eq, insert_root, hf]

theorem claim_C4_witness :
    (ValidTree (buildList [1, 2]) ∧ 1 ∈ (buildList [1, 2]).inorderTraversal) ∧
    (((buildList [1, 2]).insert 1).count = (buildList [1, 2]).count ∧
     ((buildList [1, 2]).insert 1).inorderTraversal = (buildList [1, 2]).inorderTraversal) :=
  ⟨⟨by decide, by decide⟩, claim_C4 (buildList [1, 2]) (by decide) 1 (by decide)⟩

/-- Claim C5: for a fixed set of distinct keys, `inorderTraversal()` after
inserting them into an empty tree is the same sequence whatever the insertion
order, namely the keys in ascending sorted order. -/
theorem claim_C5 (l1 l2 : List Int) (hnd : l1.Nodup) (hperm : l2.Perm l1) :
    (buildList l1).inorderTraversal = (buildList l2).inorderTraversal ∧
    List.Pairwise (· < ·) ((buildList l1).inorderTraversal) ∧
    (∀ y, y ∈ (buildList l1).inorderTraversal ↔ y ∈ l1) := by
  have hO1 : Ordered (buildList l1).root := (buildList_valid l1).1.2.2
  have hO2 : Ordered (buildList l2).root := (buildList_valid l2).1.2.2
  refine ⟨?_, by rw [inorderTraversal_eq]; exact hO1,
    fun y => by rw [inorderTraversal_eq]; exact buildList_mem l1 y⟩
  rw [inorderTraversal_eq, inorderTraversal_eq]
  apply sorted_eq_of_mem_iff hO1 hO2
  intro y
  rw [buildList_mem, buildList_mem]
  exact ⟨fun hy => hperm.mem_iff.mpr hy, fun hy => hperm.mem_iff.mp hy⟩

theorem claim_C5_witness :
    (([3, 1, 2] : List Int).Nodup ∧ ([2, 3, 1] : List Int).Perm [3, 1, 2]) ∧
    ((buildList [3, 1, 2]).inorderTraversal = (buildList [2, 3, 1]).inorderTraversal ∧
     List.Pairwise (· < ·) ((buildList [3, 1, 2]).inorderTraversal) ∧
     (∀ y, y ∈ (buildList [3, 1, 2]).inorderTraversal ↔ y ∈ ([3, 1, 2] : List Int))) :=
  ⟨⟨by decide, by decide⟩, claim_C5 [3, 1, 2] [2, 3, 1] (by decide) (by decide)⟩

/-- Claim C7: on every valid tree state, `kthSmallest(k)` returns `null`
exactly when `k` is outside `[1, count()]`, and inside that range it returns
element `k - 1` of `inorderTraversal()`. -/
theorem claim_C7 (t : AvlBinarySearchTree) (hV : ValidTree t) (k : Int) :
    (t.kthSmallest k = none ↔ (k < 1 ∨ t.count < k)) ∧
    (1 ≤ k → k ≤ t.count → t.kthSmallest k = t.inorderTraversal[(k - 1).toNat]?) := by
  have hcount : t.count = t.size := rfl
  have hsz := hV.2
  constructor
  · constructor
    · intro hn
      by_contra hc
      push_neg at hc
      obtain ⟨h1, h2⟩ := hc
      have hin := kthSmallest_in_range (k := k) hV (by omega) (by omega)
      rw [hn] at hin
      have hlt : (k - 1).toNat < (inorderN t.root).length := by omega
      rw [List.getElem?_eq_getElem hlt] at hin
      exact Option.noConfusion hin
    · intro hout
      apply kthSmallest_out_of_range
      rcases hout with hout | hout
      · exact Or.inl (by omega)
      · exact Or.inr (by omega)
  · intro h1 h2
    rw [inorderTraversal_eq]
    exact kthSmallest_in_range hV h1 (by omega)

theorem claim_C7_witness :
    ValidTree (buildList [5, 3, 7]) ∧
    (((buildList [5, 3, 7]).kthSmallest 2 = none ↔
        ((2 : Int) < 1 ∨ (buildList [5, 3, 7]).count < 2)) ∧
     (1 ≤ (2 : Int) → (2 : Int) ≤ (buildList [5, 3, 7]).count →
        (buildList [5, 3, 7]).kthSmallest 2 =
          (buildList [5, 3, 7]).inorderTraversal[((2 : Int) - 1).toNat]?)) :=
  ⟨by decide, claim_C7 (buildList [5, 3, 7]) (by decide) 2⟩

/-- Claim C8: inserting 1,2,3,4,5 in ascending order yields `height() = 2`,
and `delete(3)` on that tree yields `inorderTraversal() = [1, 2, 4, 5]` with
`isValidAVL()` still true. -/
theorem claim_C8 :
    (buildList [1, 2, 3, 4, 5]).height = 2 ∧
    ((buildList [1, 2, 3, 4, 5]).delete 3).2.inorderTraversal = [1, 2, 4, 5] ∧
    ((buildList [1, 2, 3, 4, 5]).delete 3).2.isValidAVL = true := by
  refine ⟨by decide, by decide, by decide⟩

/-- Claim C9: `AvlBinarySearchTree.isBalanced()` returns `true` on every
state, including AVL-invariant-violating ones — it is a hard-coded constant —
whereas the plain `BinarySearchTree.isBalanced` actually measures subtree
heights and reports the same spine shape as unbalanced. -/
theorem claim_C9 :
    (∀ (root : AvlNode) (size : Int),
      AvlBinarySearchTree.isBalanced ⟨root, size⟩ = true) ∧
    AvlBinarySearchTree.isValidAVL ⟨avlSpine, 3⟩ = false ∧
    AvlBinarySearchTree.isBalanced ⟨avlSpine, 3⟩ = true ∧
    PlainBst.isBalanced plainSpine = false := by
  exact ⟨fun _ _ => rfl, by decide, rfl, by decide⟩

/-- Claim C10 counterexample: on the non-empty tree holding only the key 5,
`lowestCommonAncestor(1, 2)` returns `null`, refuting the claim that a
non-empty tree always yields a non-null LCA regardless of membership: the
descent recurses into the absent left child and falls off the tree. -/
theorem claim_C10_counterexample :
    (AvlBinarySearchTree.empty.insert 5).isEmpty = false ∧
    (AvlBinarySearchTree.empty.insert 5).lowestCommonAncestor 1 2 = none := by
  exact ⟨by decide, by decide⟩

/-- Claim C10 (amended): on a valid tree, `lowestCommonAncestor(a, b)`
returns a non-null key whenever both `a` and `b` are stored in the tree;
when an argument is absent the descent may fall off the tree and return
`null` even on a non-empty tree (and it returns `null` on the empty tree). -/
theorem claim_C10_amended (t : AvlBinarySearchTree) (hV : ValidTree t) (a b : Int)
    (ha : a ∈ t.inorderTraversal) (hb : b ∈ t.inorderTraversal) :
    ∃ z, t.lowestCommonAncestor a b = some z := by
  rw [inorderTraversal_eq] at ha hb
  have hne := findLCA_ne_nil t.root hV.1.2.2 a b ha hb
  rcases hfl : findLCA t.root a b with _ | ⟨l2, d2, h2, r2⟩
  · exact absurd hfl hne
  · refine ⟨d2, ?_⟩
    simp only [AvlBinarySearchTree.lowestCommonAncestor, hfl, data_node]

theorem claim_C10_amended_witness :
    (ValidTree (buildList [2, 1, 3]) ∧ 1 ∈ (buildList [2, 1, 3]).inorderTraversal ∧
      3 ∈ (buildList [2, 1, 3]).inorderTraversal) ∧
    (∃ z, (buildList [2, 1, 3]).lowestCommonAncestor 1 3 = some z) :=
  ⟨⟨by decide, by decide, by decide⟩,
    claim_C10_amended (buildList [2, 1, 3]) (by decide) 1 3 (by decide) (by decide)⟩

end Avl
